import Mathlib

/-!
Verification development for the `publish-packages` release orchestrator of the
expo monorepo tooling.  The definitions below are a shallow embedding of the
TypeScript sources (`Changelogs.ts`, `Git.ts` and the `publish-packages`
command module): pure computations are translated to Lean functions, effectful
steps (git queries, prompts, file writes) become explicit inputs and outputs,
and JavaScript `undefined`/`null` values are modelled with `Option`.
-/

namespace Expo

/-! ### Markdown token stream

`Changelogs.ts` walks a token stream produced by `Markdown.lexify`.  Only the
token shapes inspected by `getChangesAsync` are modelled: headings (with a
depth and a text), list-item delimiters, and text tokens.  `getText` models the
JavaScript property access `token.text`, which yields a falsy value (here `""`)
on the delimiter tokens that carry no text. -/

namespace Markdown

inductive Token where
  | heading (depth : Nat) (text : String)
  | listItemStart
  | listItemEnd
  | text (s : String)
deriving DecidableEq, Repr

def Token.getText : Token → String
  | .heading _ t => t
  | .text s => s
  | .listItemStart => ""
  | .listItemEnd => ""

end Markdown

/-! ### Changelog model (`Changelogs.ts`)

JavaScript plain objects used as dictionaries (`versions[currentVersion]`,
`versions[currentVersion][currentSection]`) are modelled as association lists
with insertion-ordered keys; `lookupEntry`, `setDefaultEntry` and
`modifyEntry` model property read, `if (!o[k]) o[k] = v`, and in-place update
of an existing property. -/

namespace Changelogs

abbrev CategoryMap := List (String × List String)

abbrev VersionsMap := List (String × CategoryMap)

def lookupEntry {α : Type} : List (String × α) → String → Option α
  | [], _ => none
  | p :: ps, k => if p.1 = k then some p.2 else lookupEntry ps k

def setDefaultEntry {α : Type} (m : List (String × α)) (k : String) (v : α) :
    List (String × α) :=
  match lookupEntry m k with
  | some _ => m
  | none => m ++ [(k, v)]

def modifyEntry {α : Type} (m : List (String × α)) (k : String) (f : α → α) :
    List (String × α) :=
  m.map (fun p => if p.1 = k then (p.1, f p.2) else p)

/-- Section labels of the `ChangeType` string enum. -/
def ChangeType.BREAKING_CHANGES : String := "🛠 Breaking changes"

def ChangeType.NEW_FEATURES : String := "🎉 New features"

def ChangeType.BUG_FIXES : String := "🐛 Bug fixes"

/-- Result type of `getChangesAsync`. -/
structure ChangelogChanges where
  totalCount : Nat
  versions : VersionsMap
deriving DecidableEq, Repr

/-- Depth of headings that mean the version containing following changes. -/
def VERSION_HEADING_DEPTH : Nat := 2

/-- Depth of headings that are recognized as the type of changes. -/
def CHANGE_TYPE_HEADING_DEPTH : Nat := 3

/-- Loop state of `getChangesAsync`: the two cursor variables, the accumulated
`versions` object and `totalCount`.  The boolean `inItem` models being inside
the inner loop that consumes tokens between `LIST_ITEM_START` and
`LIST_ITEM_END`. -/
structure GetChangesState where
  currentVersion : Option String
  currentSection : Option String
  inItem : Bool
  versions : VersionsMap
  totalCount : Nat
deriving DecidableEq, Repr

/-- `changes.totalCount++; versions[currentVersion][currentSection].push(text)`. -/
def pushItemText (st : GetChangesState) (txt : String) : GetChangesState :=
  match st.currentVersion, st.currentSection with
  | some cv, some cs =>
    { st with
      totalCount := st.totalCount + 1
      versions := modifyEntry st.versions cv
        (fun cm => modifyEntry cm cs (fun es => es ++ [txt])) }
  | _, _ => st

/-- The token loop of `getChangesAsync`.  A depth-2 heading either breaks the
loop (`token.text !== toVersion && (!fromVersion || token.text === fromVersion)`)
or opens a version section; a depth-3 heading under a version opens a category
section; tokens between list-item delimiters contribute their non-empty text
to the current category. -/
def walkTokens (fromVersion : Option String) (toVersion : String) :
    List Markdown.Token → GetChangesState → GetChangesState
  | [], st => st
  | tok :: rest, st =>
    if st.inItem then
      match tok with
      | Markdown.Token.listItemEnd =>
        walkTokens fromVersion toVersion rest { st with inItem := false }
      | _ =>
        if tok.getText ≠ "" then
          walkTokens fromVersion toVersion rest (pushItemText st tok.getText)
        else
          walkTokens fromVersion toVersion rest st
    else
      match tok with
      | Markdown.Token.heading depth txt =>
        if depth = VERSION_HEADING_DEPTH then
          if txt ≠ toVersion ∧ (fromVersion = none ∨ fromVersion = some txt) then
            st
          else
            walkTokens fromVersion toVersion rest
              { st with
                currentVersion := some txt
                currentSection := none
                versions := setDefaultEntry st.versions txt [] }
        else if depth = CHANGE_TYPE_HEADING_DEPTH then
          match st.currentVersion with
          | some cv =>
            walkTokens fromVersion toVersion rest
              { st with
                currentSection := some txt
                versions := modifyEntry st.versions cv
                  (fun cm => setDefaultEntry cm txt []) }
          | none => walkTokens fromVersion toVersion rest st
        else
          walkTokens fromVersion toVersion rest st
      | Markdown.Token.listItemStart =>
        match st.currentVersion, st.currentSection with
        | some _, some _ =>
          walkTokens fromVersion toVersion rest { st with inItem := true }
        | _, _ => walkTokens fromVersion toVersion rest st
      | _ => walkTokens fromVersion toVersion rest st

/-- `getChangesAsync(fromVersion?, toVersion = 'master')` on an already lexed
token stream.  The absent (or empty, hence falsy) `fromVersion` argument is
modelled as `none`. -/
def getChanges (tokens : List Markdown.Token) (fromVersion : Option String)
    (toVersion : String) : ChangelogChanges :=
  let st := walkTokens fromVersion toVersion tokens ⟨none, none, false, [], 0⟩
  ⟨st.totalCount, st.versions⟩

end Changelogs

/-! ### Git layer (`Git.ts`) -/

namespace Git

structure GitLog where
  hash : String
  parent : String
  title : String
  authorName : String
  committerRelativeDate : String
deriving DecidableEq, Repr

inductive GitFileStatus where
  | modified
  | copy
  | rename
  | added
  | deleted
  | unmerged
deriving DecidableEq, Repr

structure GitFileLog where
  path : String
  relativePath : String
  status : GitFileStatus
deriving DecidableEq, Repr

end Git

/-! ### Semantic version model (the `semver` npm package, as used here)

Only the strict parsing and increment behaviour exercised by the command is
modelled.  Versions are `major.minor.patch` with an optional dot-separated
prerelease suffix; numeric identifiers may not have leading zeroes.  String
scanning is done on `String.data` character lists so that every function is
structurally recursive and evaluates inside the kernel. -/

namespace Semver

/-- A prerelease identifier: numeric identifiers are stored as numbers by the
`semver` parser, others as strings. -/
inductive PreId where
  | num (n : Nat)
  | str (s : String)
deriving DecidableEq, Repr

def PreId.isNum : PreId → Bool
  | .num _ => true
  | .str _ => false

def PreId.render : PreId → String
  | .num n => toString n
  | .str s => s

structure SemVer where
  major : Nat
  minor : Nat
  patch : Nat
  prerelease : List PreId
deriving DecidableEq, Repr

/-- Split a character list at every occurrence of `c` (like `String.split`). -/
def splitOnChar (c : Char) : List Char → List (List Char)
  | [] => [[]]
  | x :: xs =>
    let r := splitOnChar c xs
    if x = c then [] :: r
    else
      match r with
      | y :: ys => (x :: y) :: ys
      | [] => [[x]]

/-- Parse a numeric identifier (`0|[1-9]\d*`): digits only, no leading zero. -/
def parseNumId (l : List Char) : Option Nat :=
  if l.isEmpty then none
  else if ¬ l.all Char.isDigit then none
  else if l ≠ ['0'] ∧ l.head? = some '0' then none
  else some (l.foldl (fun n c => n * 10 + (c.toNat - 48)) 0)

/-- Parse one prerelease identifier (`0|[1-9]\d*|\d*[a-zA-Z-][a-zA-Z0-9-]*`). -/
def parsePreId (l : List Char) : Option PreId :=
  if l.isEmpty then none
  else if ¬ l.all (fun c => c.isAlphanum ∨ c = '-') then none
  else
    match parseNumId l with
    | some n => some (PreId.num n)
    | none => if l.all Char.isDigit then none else some (PreId.str (String.mk l))

/-- Strict parse of a version string.  Build metadata (`+`) is not modelled;
strings containing `+` are rejected. -/
def parse (v : String) : Option SemVer :=
  if v.data.contains '+' then none
  else
    match splitOnChar '-' v.data with
    | [] => none
    | main :: preParts =>
      match splitOnChar '.' main with
      | [ma, mi, pa] =>
        match parseNumId ma, parseNumId mi, parseNumId pa with
        | some major, some minor, some patch =>
          match preParts with
          | [] => some ⟨major, minor, patch, []⟩
          | _ =>
            let pre := List.intercalate ['-'] preParts
            match (splitOnChar '.' pre).mapM parsePreId with
            | some ids => some ⟨major, minor, patch, ids⟩
            | none => none
        | _, _, _ => none
      | _ => none

def render (sv : SemVer) : String :=
  toString sv.major ++ "." ++ toString sv.minor ++ "." ++ toString sv.patch ++
    (if sv.prerelease.isEmpty then ""
     else "-" ++ String.intercalate "." (sv.prerelease.map PreId.render))

/-- `semver.prerelease(version)`: the prerelease components, or `null` when
the version does not parse or has none. -/
def prereleaseOf (v : String) : Option (List PreId) :=
  match parse v with
  | none => none
  | some sv => if sv.prerelease.isEmpty then none else some sv.prerelease

/-- On a reversed identifier list, increment the first numeric identifier. -/
def bumpFromEnd : List PreId → List PreId
  | [] => []
  | PreId.num n :: rest => PreId.num (n + 1) :: rest
  | PreId.str s :: rest => PreId.str s :: bumpFromEnd rest

/-- The core of `inc('pre')`: `[0]` when empty, otherwise increment the
rightmost numeric identifier, appending `0` when there is none. -/
def incPreIds (ids : List PreId) : List PreId :=
  if ids.isEmpty then [PreId.num 0]
  else if ids.any PreId.isNum then (bumpFromEnd ids.reverse).reverse
  else ids ++ [PreId.num 0]

/-- The identifier adjustment of `inc('pre', identifier)`: keep the list when
it already starts with `identifier` followed by a number, otherwise reset to
`[identifier, 0]`.  An empty identifier is falsy and ignored. -/
def applyPreIdentifier (identifier : Option String) (ids : List PreId) :
    List PreId :=
  match identifier with
  | none => ids
  | some idStr =>
    if idStr = "" then ids
    else
      match ids with
      | PreId.str s :: PreId.num k :: rest =>
        if s = idStr then PreId.str s :: PreId.num k :: rest
        else [PreId.str idStr, PreId.num 0]
      | _ => [PreId.str idStr, PreId.num 0]

def incPre (identifier : Option String) (sv : SemVer) : SemVer :=
  { sv with prerelease := applyPreIdentifier identifier (incPreIds sv.prerelease) }

end Semver

/-! ### Release types (`publishPackages.ts`)

The source declares `enum ReleaseType { MAJOR, MINOR, PATCH, PREMAJOR,
PREMINOR, PREPATCH }` — six members with string values.  Note that the source
nevertheless references `ReleaseType.PRERELEASE`, which is **not** a member of
the enum; in JavaScript that property access evaluates to `undefined`, which is
modelled as `none` at type `Option ReleaseType`. -/

inductive ReleaseType where
  | major
  | minor
  | patch
  | premajor
  | preminor
  | prepatch
deriving DecidableEq, Repr

namespace Semver

/-- `new SemVer(v).inc(release, identifier)` for the six declared release
types (the `pre*` types first reset/bump the main triple and then run the
`'pre'` step). -/
def incBy (sv : SemVer) (rel : ReleaseType) (identifier : Option String) :
    SemVer :=
  match rel with
  | ReleaseType.major =>
    if sv.minor ≠ 0 ∨ sv.patch ≠ 0 ∨ sv.prerelease = [] then
      ⟨sv.major + 1, 0, 0, []⟩
    else ⟨sv.major, 0, 0, []⟩
  | ReleaseType.minor =>
    if sv.patch ≠ 0 ∨ sv.prerelease = [] then ⟨sv.major, sv.minor + 1, 0, []⟩
    else ⟨sv.major, sv.minor, 0, []⟩
  | ReleaseType.patch =>
    if sv.prerelease = [] then ⟨sv.major, sv.minor, sv.patch + 1, []⟩
    else ⟨sv.major, sv.minor, sv.patch, []⟩
  | ReleaseType.premajor => incPre identifier ⟨sv.major + 1, 0, 0, []⟩
  | ReleaseType.preminor => incPre identifier ⟨sv.major, sv.minor + 1, 0, []⟩
  | ReleaseType.prepatch => incPre identifier ⟨sv.major, sv.minor, sv.patch + 1, []⟩

/-- `semver.inc(version, release, identifier)`: `null` when the version does
not parse or when the release argument is not a valid increment (in
particular when it is `undefined`, modelled as `none` — `inc` throws on an
invalid increment argument and the wrapper catches and returns `null`). -/
def inc (v : String) (rel : Option ReleaseType) (identifier : Option String) :
    Option String :=
  match parse v, rel with
  | some sv, some r => some (render (incBy sv r identifier))
  | _, _ => none

end Semver

/-! ### Release decision (`getSuggestedReleaseType` and friends) -/

/-- An array of directories treated as containing native code. -/
def NATIVE_DIRECTORIES : List String := ["ios", "android"]

/-- `relativePath.startsWith(prefixStr)` via character lists. -/
def strStartsWith (s p : String) : Bool :=
  p.data.isPrefixOf s.data

def fileLogsContainNativeChanges (fileLogs : List Git.GitFileLog) : Bool :=
  fileLogs.any fun fileLog =>
    NATIVE_DIRECTORIES.any fun dir => strStartsWith fileLog.relativePath (dir ++ "/")

/-- The release decision of `getSuggestedReleaseType`.  The first branch of
the source returns `ReleaseType.PRERELEASE`, a member the enum does not
declare, so it yields `undefined` (`none`). -/
def getSuggestedReleaseType (currentVersion : String)
    (fileLogs : Option (List Git.GitFileLog))
    (changelogChanges : Option Changelogs.ChangelogChanges) :
    Option ReleaseType :=
  if (Semver.prereleaseOf currentVersion).isSome then
    none
  else if ((changelogChanges.bind fun cc =>
      (Changelogs.lookupEntry cc.versions "master").bind fun cm =>
        Changelogs.lookupEntry cm Changelogs.ChangeType.BREAKING_CHANGES).getD []) ≠ [] then
    some ReleaseType.major
  else if (match fileLogs with
           | some fl => fileLogsContainNativeChanges fl
           | none => false) then
    some ReleaseType.minor
  else
    some ReleaseType.patch

/-- The commander option `--prerelease` is `false`, `true` or a string. -/
inductive BoolOrString where
  | ofBool (b : Bool)
  | ofString (s : String)
deriving DecidableEq, Repr

/-- `options.prerelease === true ? 'rc' : options.prerelease`, combined with
the truthiness test guarding the prerelease branch: `false` and `""` are
falsy. -/
def prereleaseIdentifierOf : BoolOrString → Option String
  | BoolOrString.ofBool true => some "rc"
  | BoolOrString.ofBool false => none
  | BoolOrString.ofString s => if s = "" then none else some s

/-- The `releaseType`/`releaseVersion` fields of `PackageState`. -/
structure ReleaseDecision where
  releaseType : Option ReleaseType
  releaseVersion : Option String
deriving DecidableEq, Repr

/-- The release computation of `findUnpublishedPackagesAsync` (lines that set
`state.releaseType`/`state.releaseVersion`): the suggested type, the
suggested next version, an early `continue` when either is falsy, and the
prerelease re-increment which assigns `ReleaseType.PRERELEASE` (that is,
`undefined`) before calling `semver.inc` with it. -/
def computeReleaseState (packageVersion : String)
    (fileLogs : Option (List Git.GitFileLog))
    (changelogChanges : Option Changelogs.ChangelogChanges)
    (prereleaseOption : BoolOrString) : ReleaseDecision :=
  let releaseType := getSuggestedReleaseType packageVersion fileLogs changelogChanges
  let releaseVersion := Semver.inc packageVersion releaseType none
  match releaseType, releaseVersion with
  | some rt, some rv =>
    if rv = "" then ⟨some rt, some rv⟩
    else
      match prereleaseIdentifierOf prereleaseOption with
      | some idStr => ⟨none, Semver.inc rv none (some idStr)⟩
      | none => ⟨some rt, some rv⟩
  | _, _ => ⟨releaseType, releaseVersion⟩

/-- `undefined`/`""` are falsy, any other string truthy. -/
def jsTruthyStr : Option String → Bool
  | none => false
  | some s => s ≠ ""

/-- The commit-log pruning of `findUnpublishedPackagesAsync`: `if
(pkg.packageJson.gitHead) { logs.pop(); }` — `pop` removes the **last**
element of the newest-first array. -/
def pruneLogsForGitHead (gitHead : Option String) (logs : List Git.GitLog) :
    List Git.GitLog :=
  if jsTruthyStr gitHead then logs.dropLast else logs

/-! ### Options and the state backup (checkpoint) -/

structure ActionOptions where
  listUnpublished : Bool
  prerelease : BoolOrString
  exclude : String
  scope : String
  retry : Bool
  skipRepoChecks : Bool
  dry : Bool
deriving DecidableEq, Repr

/-- `Pick<ActionOptions, 'scope' | 'exclude' | 'dry'>`. -/
structure BackupableOptions where
  scope : String
  exclude : String
  dry : Bool
deriving DecidableEq, Repr

def pickBackupableOptions (options : ActionOptions) : BackupableOptions :=
  ⟨options.scope, options.exclude, options.dry⟩

/-- Per-package serializable state (`PackageState`); every field starts
absent. -/
structure PackageState where
  hasUnpublishedChanges : Option Bool
  isSelectedToPublish : Option Bool
  integral : Option Bool
  logs : Option (List Git.GitLog)
  fileLogs : Option (List Git.GitFileLog)
  releaseType : Option ReleaseType
  releaseVersion : Option String
deriving DecidableEq, Repr

structure StateBackup where
  timestamp : Int
  head : String
  phaseIndex : Nat
  options : BackupableOptions
  state : List (String × PackageState)
deriving DecidableEq, Repr

/-- 30 minutes, in milliseconds. -/
def BACKUP_EXPIRATION_TIME : Int := 30 * 60 * 1000

/-- `isBackupValid`: rejected when the head moved or the backup is older than
`BACKUP_EXPIRATION_TIME`; then rejected when `jsondiffpatch.diff` of the
backupable options is non-empty (the diff of two flat records is empty exactly
when they are equal); accepted otherwise.  `Date.now()` is passed in as
`now`. -/
def isBackupValid (backup : StateBackup) (currentHead : String) (now : Int)
    (options : ActionOptions) : Bool :=
  if currentHead ≠ backup.head ∨ now - backup.timestamp > BACKUP_EXPIRATION_TIME then
    false
  else if pickBackupableOptions options ≠ backup.options then
    false
  else
    true

/-- `saveBackup` (the serialized record it writes). -/
def makeBackup (head : String) (phaseIndex : Nat) (now : Int)
    (state : List (String × PackageState)) (options : ActionOptions) :
    StateBackup :=
  ⟨now, head, phaseIndex, pickBackupableOptions options, state⟩

/-! ### The phase pipeline of `action`

The phase loop is modelled over an abstract state type `σ` (the fabrics'
mutable state): a phase either produces the updated state or raises (`none`).
`runPhaseLoop` mirrors `for (; phaseIndex < phases.length; phaseIndex++)`
with `saveBackup(head, phaseIndex, …)` after each successful phase, the
`process.exit(1)` on a raised error (leaving the last written backup on
disk), and `fs.remove(BACKUP_PATH)` after the loop.  `executed` records the
indices of the phases that were run (attempted). -/

inductive PipelineOutcome (σ : Type) where
  | failed (phaseIndex : Nat) (state : σ)
  | completed (state : σ)
deriving DecidableEq, Repr

structure PipelineResult (σ : Type) where
  executed : List Nat
  disk : Option (Nat × σ)
  outcome : PipelineOutcome σ
deriving DecidableEq, Repr

def runPhaseLoop {σ : Type} : List (σ → Option σ) → Nat → σ →
    Option (Nat × σ) → PipelineResult σ
  | [], _, s, _ => ⟨[], none, PipelineOutcome.completed s⟩
  | p :: rest, i, s, disk =>
    match p s with
    | none => ⟨[i], disk, PipelineOutcome.failed i s⟩
    | some s' =>
      let r := runPhaseLoop rest (i + 1) s' (some (i, s'))
      ⟨i :: r.executed, r.disk, r.outcome⟩

/-- A fresh run: no valid backup restored, `phaseIndex = 0`, no file on disk. -/
def runPipelineFresh {σ : Type} (phases : List (σ → Option σ)) (s0 : σ) :
    PipelineResult σ :=
  runPhaseLoop phases 0 s0 none

/-- A resumed run: `phaseIndex = backup.phaseIndex`, per-package state merged
from the backup (restored fields win, modelled by starting from the restored
state), the backup file still on disk. -/
def resumeFromBackup {σ : Type} (phases : List (σ → Option σ))
    (backup : Nat × σ) : PipelineResult σ :=
  runPhaseLoop (phases.drop backup.1) backup.1 backup.2 (some backup)

/-! ### Manifest updates (`updateVersionsAsync`,
`updateBundledNativeModulesFileAsync`)

Only the data each function needs from a fabric is modelled; the writes they
perform are returned as lists instead of being performed on disk. -/

structure PkgFabricModel where
  packageName : String
  packageJsonGitHead : Option String
  logs : Option (List Git.GitLog)
  releaseVersion : Option String
  isSelectedToPublish : Option Bool
deriving DecidableEq, Repr

/-- `state.logs?.[0]?.hash ?? pkg.packageJson.gitHead`. -/
def coalesceGitHead (logs : Option (List Git.GitLog))
    (pkgGitHead : Option String) : Option String :=
  match logs.bind List.head? with
  | some l => some l.hash
  | none => pkgGitHead

/-- One `package.json` write of `updateVersionsAsync`. -/
structure ManifestWrite where
  packageName : String
  version : String
  gitHead : String
deriving DecidableEq, Repr

/-- `updateVersionsAsync` iterates over **all** fabrics and writes
`package.json` for every fabric whose coalesced `gitHead` and
`releaseVersion` are truthy. -/
def updateVersionsWrites (fabrics : List PkgFabricModel) : List ManifestWrite :=
  fabrics.filterMap fun f =>
    match coalesceGitHead f.logs f.packageJsonGitHead, f.releaseVersion with
    | some gh, some rv =>
      if gh = "" ∨ rv = "" then none else some ⟨f.packageName, rv, gh⟩
    | _, _ => none

/-- JavaScript template-literal stringification of a possibly-undefined
value. -/
def jsTemplateStr : Option String → String
  | some s => s
  | none => "undefined"

/-- `updateBundledNativeModulesFileAsync` adds `pkg.packageName: ~version`
for exactly the fabrics with `state.isSelectedToPublish` truthy. -/
def updateBundledWrites (fabrics : List PkgFabricModel) :
    List (String × String) :=
  (fabrics.filter fun f => f.isSelectedToPublish = some true).map fun f =>
    (f.packageName, "~" ++ jsTemplateStr f.releaseVersion)

/-! ### Structured changelog documents

A changelog document as `getChangesAsync` understands it: version sections in
document order (newest first by convention), each with category sections
holding entry texts.  `docTokens` is the token stream `Markdown.lexify`
produces for such a document; `docChanges` and `collectSections` give the
section-level reading that the token walk is proved to implement. -/

structure ChangelogSection where
  label : String
  categories : List (String × List String)
deriving DecidableEq, Repr

def itemTokens (e : String) : List Markdown.Token :=
  [Markdown.Token.listItemStart, Markdown.Token.text e, Markdown.Token.listItemEnd]

def categoryTokens (c : String × List String) : List Markdown.Token :=
  Markdown.Token.heading 3 c.1 :: (c.2.map itemTokens).flatten

def sectionTokens (s : ChangelogSection) : List Markdown.Token :=
  Markdown.Token.heading 2 s.label :: (s.categories.map categoryTokens).flatten

def docTokens (doc : List ChangelogSection) : List Markdown.Token :=
  (doc.map sectionTokens).flatten

def sectionChanges (s : ChangelogSection) : String × Changelogs.CategoryMap :=
  (s.label, s.categories.map fun c => (c.1, c.2.filter (fun e => e ≠ "")))

def sectionCount (s : ChangelogSection) : Nat :=
  (s.categories.map fun c => (c.2.filter (fun e => e ≠ "")).length).sum

def docChanges (secs : List ChangelogSection) : Changelogs.ChangelogChanges :=
  ⟨(secs.map sectionCount).sum, secs.map sectionChanges⟩

/-- The version sections whose contents `getChangesAsync(fromVersion,
toVersion)` collects: the walk stops at the first version heading satisfying
the break condition. -/
def collectSections (fromVersion : Option String) (toVersion : String) :
    List ChangelogSection → List ChangelogSection
  | [] => []
  | s :: rest =>
    if s.label ≠ toVersion ∧ (fromVersion = none ∨ fromVersion = some s.label) then
      []
    else
      s :: collectSections fromVersion toVersion rest

/-! ### Counting collected entries (for the `totalCount` invariant) -/

def countCatEntries (cm : Changelogs.CategoryMap) : Nat :=
  (cm.map fun c => c.2.length).sum

def countVersionEntries (m : Changelogs.VersionsMap) : Nat :=
  (m.map fun p => countCatEntries p.2).sum

def entriesNonempty (m : Changelogs.VersionsMap) : Prop :=
  ∀ p ∈ m, ∀ c ∈ p.2, ∀ e ∈ c.2, e ≠ ""

/-- Structural invariant of the `getChangesAsync` loop state: the `versions`
object has no duplicate keys at either level, and the current cursors always
point at existing properties (JavaScript relies on this: the push would throw
otherwise). -/
def keysOk (st : Changelogs.GetChangesState) : Prop :=
  (st.versions.map Prod.fst).Nodup ∧
  (∀ p ∈ st.versions, (p.2.map Prod.fst).Nodup) ∧
  (∀ cv, st.currentVersion = some cv →
    ∃ cm, Changelogs.lookupEntry st.versions cv = some cm ∧
      ∀ cs, st.currentSection = some cs →
        ∃ es, Changelogs.lookupEntry cm cs = some es)

/-! ### Concrete data used by witnesses and counterexamples -/

def exampleUnreleased : ChangelogSection :=
  ⟨"master", [(Changelogs.ChangeType.BREAKING_CHANGES, ["Dropped support for X"])]⟩

def exampleV120 : ChangelogSection :=
  ⟨"1.2.0", [(Changelogs.ChangeType.BUG_FIXES, ["Fixed a bug"])]⟩

def exampleV110 : ChangelogSection :=
  ⟨"1.1.0", [(Changelogs.ChangeType.NEW_FEATURES, ["Added a feature"])]⟩

def exampleDoc : List ChangelogSection :=
  [exampleUnreleased, exampleV120, exampleV110]

def exampleNativeFileLog : Git.GitFileLog :=
  ⟨"packages/expo-camera/ios/CameraModule.swift", "ios/CameraModule.swift",
    Git.GitFileStatus.modified⟩

def emptyChangelogChanges : Changelogs.ChangelogChanges := ⟨0, []⟩

def gitLogNewest : Git.GitLog := ⟨"b2", "b1", "newer commit", "alice", "2 days ago"⟩

def gitLogOldest : Git.GitLog := ⟨"b1", "b0", "older commit", "bob", "3 weeks ago"⟩

/-- Two phases over a counter state: phase 0 succeeds, phase 1 raises. -/
def examplePhases : List (Nat → Option Nat) :=
  [fun s => some (s + 1), fun _ => none]

def exampleSelectedFabric : PkgFabricModel :=
  ⟨"expo-camera", some "old-head-a", some [⟨"c1", "c0", "feat", "alice", "1 day ago"⟩],
    some "2.0.0", some true⟩

/-- A fabric that was **not** selected to publish: no new commits, a recorded
publish head in its `package.json`, and a computed suggested version. -/
def exampleUnselectedFabric : PkgFabricModel :=
  ⟨"expo-sensors", some "head-b", some [], some "1.0.1", none⟩

def exampleBaseOptions : ActionOptions :=
  ⟨false, BoolOrString.ofBool false, "", "", false, false, false⟩

def examplePrereleaseOptions : ActionOptions :=
  ⟨true, BoolOrString.ofBool true, "", "", true, true, false⟩

end Expo

/-! ## Theorems -/

namespace Expo

/-! ### Pipeline lemmas -/

theorem runPhaseLoop_none_outcome {σ : Type} (p : σ → Option σ)
    (rest : List (σ → Option σ)) (k : Nat) (s : σ) (disk : Option (Nat × σ))
    (hp : p s = none) :
    (runPhaseLoop (p :: rest) k s disk).outcome = PipelineOutcome.failed k s := by
  simp [runPhaseLoop, hp]

theorem runPhaseLoop_none_disk {σ : Type} (p : σ → Option σ)
    (rest : List (σ → Option σ)) (k : Nat) (s : σ) (disk : Option (Nat × σ))
    (hp : p s = none) :
    (runPhaseLoop (p :: rest) k s disk).disk = disk := by
  simp [runPhaseLoop, hp]

theorem runPhaseLoop_some_outcome {σ : Type} (p : σ → Option σ)
    (rest : List (σ → Option σ)) (k : Nat) (s s' : σ) (disk : Option (Nat × σ))
    (hp : p s = some s') :
    (runPhaseLoop (p :: rest) k s disk).outcome =
      (runPhaseLoop rest (k + 1) s' (some (k, s'))).outcome := by
  simp [runPhaseLoop, hp]

theorem runPhaseLoop_some_disk {σ : Type} (p : σ → Option σ)
    (rest : List (σ → Option σ)) (k : Nat) (s s' : σ) (disk : Option (Nat × σ))
    (hp : p s = some s') :
    (runPhaseLoop (p :: rest) k s disk).disk =
      (runPhaseLoop rest (k + 1) s' (some (k, s'))).disk := by
  simp [runPhaseLoop, hp]

theorem runPhaseLoop_failed_bounds {σ : Type} (phases : List (σ → Option σ)) :
    ∀ (k : Nat) (s : σ) (disk : Option (Nat × σ)) (i : Nat) (sf : σ),
      (runPhaseLoop phases k s disk).outcome = PipelineOutcome.failed i sf →
      k ≤ i ∧ i < k + phases.length := by
  induction phases with
  | nil =>
    intro k s disk i sf h
    simp [runPhaseLoop] at h
  | cons p rest ih =>
    intro k s disk i sf h
    cases hp : p s with
    | none =>
      rw [runPhaseLoop_none_outcome p rest k s disk hp] at h
      simp only [PipelineOutcome.failed.injEq] at h
      obtain ⟨hik, _⟩ := h
      subst hik
      simp only [List.length_cons]
      omega
    | some s' =>
      rw [runPhaseLoop_some_outcome p rest k s s' disk hp] at h
      have := ih (k + 1) s' (some (k, s')) i sf h
      simp only [List.length_cons]
      omega

theorem runPhaseLoop_failed_disk {σ : Type} (phases : List (σ → Option σ)) :
    ∀ (k : Nat) (s : σ) (disk : Option (Nat × σ)) (i : Nat) (sf : σ),
      (runPhaseLoop phases k s disk).outcome = PipelineOutcome.failed i sf →
      (i = k ∧ sf = s ∧ (runPhaseLoop phases k s disk).disk = disk) ∨
      (k < i ∧ (runPhaseLoop phases k s disk).disk = some (i - 1, sf)) := by
  induction phases with
  | nil =>
    intro k s disk i sf h
    simp [runPhaseLoop] at h
  | cons p rest ih =>
    intro k s disk i sf h
    cases hp : p s with
    | none =>
      rw [runPhaseLoop_none_outcome p rest k s disk hp] at h
      rw [runPhaseLoop_none_disk p rest k s disk hp]
      simp only [PipelineOutcome.failed.injEq] at h
      exact Or.inl ⟨h.1.symm, h.2.symm, rfl⟩
    | some s' =>
      rw [runPhaseLoop_some_outcome p rest k s s' disk hp] at h
      rw [runPhaseLoop_some_disk p rest k s s' disk hp]
      rcases ih (k + 1) s' (some (k, s')) i sf h with ⟨hik, hsf, hdisk⟩ | ⟨hlt, hdisk⟩
      · refine Or.inr ⟨by omega, ?_⟩
        rw [hdisk]
        subst hik hsf
        simp
      · exact Or.inr ⟨by omega, hdisk⟩

theorem runPhaseLoop_executed_head {σ : Type} (p : σ → Option σ)
    (rest : List (σ → Option σ)) (k : Nat) (s : σ) (disk : Option (Nat × σ)) :
    (runPhaseLoop (p :: rest) k s disk).executed.head? = some k := by
  simp only [runPhaseLoop]
  cases p s <;> simp

/-- C1 (amended): for every run that fails while executing phase `i` (`i ≥ 1`,
all earlier phases having succeeded), the checkpoint left on disk is the one
written after phase `i − 1` completed — it records `phaseIndex = i − 1` and the
state produced by phase `i − 1` — and a subsequent invocation that restores
this checkpoint resumes execution at phase `i − 1` (the recorded
`phaseIndex`), re-executing the already-completed phase `i − 1` rather than
starting at phase `i`. -/
theorem c1_failed_checkpoint_and_resume {σ : Type} (phases : List (σ → Option σ))
    (s0 : σ) (i : Nat) (sf : σ)
    (hfail : (runPipelineFresh phases s0).outcome = PipelineOutcome.failed i sf)
    (hi : 1 ≤ i) :
    (runPipelineFresh phases s0).disk = some (i - 1, sf) ∧
    (resumeFromBackup phases (i - 1, sf)).executed.head? = some (i - 1) := by
  have hb := runPhaseLoop_failed_bounds phases 0 s0 none i sf hfail
  rcases runPhaseLoop_failed_disk phases 0 s0 none i sf hfail with ⟨hik, _, _⟩ | ⟨_, hdisk⟩
  · omega
  · refine ⟨hdisk, ?_⟩
    have hlen : i - 1 < phases.length := by omega
    have hne : phases.drop (i - 1) ≠ [] := by
      intro hnil
      have := List.drop_eq_nil_iff.mp hnil
      omega
    obtain ⟨p, rest, hdrop⟩ := List.exists_cons_of_ne_nil hne
    unfold resumeFromBackup
    rw [hdrop]
    exact runPhaseLoop_executed_head p rest (i - 1) sf (some (i - 1, sf))

/-- C1 counterexample: with two phases where phase 0 succeeds and phase 1
raises, the fresh run fails at phase 1 leaving the phase-0 checkpoint
(`phaseIndex = 0`) on disk; the resuming invocation executes phases `[0, 1]`,
re-executing phase 0 even though it had already completed successfully —
contradicting the claim that it resumes at phase 1 re-executing no completed
phase. -/
theorem c1_counterexample :
    (runPipelineFresh examplePhases 0).outcome = PipelineOutcome.failed 1 1 ∧
    (runPipelineFresh examplePhases 0).disk = some (0, 1) ∧
    (resumeFromBackup examplePhases (0, 1)).executed = [0, 1] := by
  refine ⟨rfl, rfl, rfl⟩

/-- Witness for the amended C1 theorem at the concrete two-phase pipeline. -/
theorem c1_amended_witness :
    (runPipelineFresh examplePhases 0).disk = some (0, 1) ∧
    (resumeFromBackup examplePhases (0, 1)).executed.head? = some 0 :=
  c1_failed_checkpoint_and_resume examplePhases 0 1 1 rfl (by decide)

/-! ### Checkpoint validity -/

/-- C3: a stored checkpoint is accepted for resumption if and only if its
recorded head commit hash equals the current HEAD, its age (`now` minus its
timestamp) is within the 30-minute staleness window, and its recorded subset
of run options equals the current run's; being a conjunction of the three
conditions, negating any one of them alone makes it invalid. -/
theorem c3_backup_validity_iff (backup : StateBackup) (currentHead : String)
    (now : Int) (options : ActionOptions) :
    isBackupValid backup currentHead now options = true ↔
      (currentHead = backup.head ∧
        now - backup.timestamp ≤ BACKUP_EXPIRATION_TIME ∧
        pickBackupableOptions options = backup.options) := by
  simp only [isBackupValid]
  split_ifs with h1 h2
  · constructor
    · intro h
      exact absurd h (by simp)
    · rintro ⟨hh, ht, _⟩
      rcases h1 with h | h
      · exact h hh
      · omega
  · constructor
    · intro h
      exact absurd h (by simp)
    · rintro ⟨_, _, hopt⟩
      exact absurd hopt h2
  · push_neg at h1
    simp only [true_iff]
    exact ⟨h1.1, h1.2, not_ne_iff.mp h2⟩

/-- Witness for C3 at a concrete valid checkpoint. -/
theorem c3_backup_validity_witness :
    isBackupValid (makeBackup "headhash" 1 1000 [] exampleBaseOptions)
      "headhash" 2000 exampleBaseOptions = true :=
  (c3_backup_validity_iff (makeBackup "headhash" 1 1000 [] exampleBaseOptions)
    "headhash" 2000 exampleBaseOptions).mpr ⟨rfl, by decide, rfl⟩

/-- C10: the options recorded in a checkpoint and compared during validity
checking are exactly `scope`, `exclude` and `dry`; two runs whose options
agree on those three fields produce the same validity verdict regardless of
`prerelease`, `retry`, `listUnpublished` and `skipRepoChecks`. -/
theorem c10_only_backupable_options_matter (backup : StateBackup)
    (currentHead : String) (now : Int) (o1 o2 : ActionOptions)
    (hscope : o1.scope = o2.scope) (hexclude : o1.exclude = o2.exclude)
    (hdry : o1.dry = o2.dry) :
    pickBackupableOptions o1 = pickBackupableOptions o2 ∧
    isBackupValid backup currentHead now o1 =
      isBackupValid backup currentHead now o2 := by
  have hpick : pickBackupableOptions o1 = pickBackupableOptions o2 := by
    simp [pickBackupableOptions, hscope, hexclude, hdry]
  exact ⟨hpick, by simp only [isBackupValid, hpick]⟩

/-- Witness for C10: a checkpoint written by a run without `--prerelease`
(and without `--retry`, `--list-unpublished`, `--skip-repo-checks`) is
accepted by a resuming run that passes all four of those flags. -/
theorem c10_witness :
    isBackupValid (makeBackup "h" 2 1000 [] exampleBaseOptions) "h" 2000
        exampleBaseOptions =
      isBackupValid (makeBackup "h" 2 1000 [] exampleBaseOptions) "h" 2000
        examplePrereleaseOptions ∧
    isBackupValid (makeBackup "h" 2 1000 [] exampleBaseOptions) "h" 2000
      examplePrereleaseOptions = true :=
  ⟨(c10_only_backupable_options_matter (makeBackup "h" 2 1000 [] exampleBaseOptions)
      "h" 2000 exampleBaseOptions examplePrereleaseOptions rfl rfl rfl).2,
    by decide⟩

/-! ### Manifest updates -/

/-- C4 (code bug): `updateVersionsAsync` iterates over **all** fabrics, so the
manifest of `expo-sensors` — which was never selected to publish — is
rewritten (with its suggested patch version and its recorded git head), while
the aggregate `bundledNativeModules.json` update correctly covers only the
selected `expo-camera`.  This contradicts the function's own documentation
("Updates versions in packages selected to be published") and the claim. -/
theorem c4_unselected_manifest_written :
    exampleUnselectedFabric.isSelectedToPublish ≠ some true ∧
    updateVersionsWrites [exampleSelectedFabric, exampleUnselectedFabric] =
      [⟨"expo-camera", "2.0.0", "c1"⟩, ⟨"expo-sensors", "1.0.1", "head-b"⟩] ∧
    updateBundledWrites [exampleSelectedFabric, exampleUnselectedFabric] =
      [("expo-camera", "~2.0.0")] := by
  refine ⟨by decide, by decide, by decide⟩

/-! ### Commit-log pruning -/

/-- C5 counterexample: with a non-empty last-published reference and the
newest-first two-entry log `[gitLogNewest, gitLogOldest]`, the pruned log is
`[gitLogNewest]` — the entry discarded is the **oldest** one, not the most
recent entry `gitLogNewest` (discarding the most recent entry would have left
`List.tail`, i.e. `[gitLogOldest]`). -/
theorem c5_counterexample :
    pruneLogsForGitHead (some "abc") [gitLogNewest, gitLogOldest] = [gitLogNewest] ∧
    pruneLogsForGitHead (some "abc") [gitLogNewest, gitLogOldest] ≠
      List.tail [gitLogNewest, gitLogOldest] := by
  refine ⟨by decide, by decide⟩

/-- C5 (amended): when the last-published reference is non-empty and the
newest-first log is non-empty, exactly its **last** element — the oldest
entry — is discarded (the pruned log followed by that last element is the
original log, and its length drops by one); when the reference is absent or
empty, no entry is discarded. -/
theorem c5_amended_drops_oldest (gitHead : String) (logs : List Git.GitLog)
    (hhead : gitHead ≠ "") (hne : logs ≠ []) :
    pruneLogsForGitHead (some gitHead) logs ++ [logs.getLast hne] = logs ∧
    (pruneLogsForGitHead (some gitHead) logs).length + 1 = logs.length ∧
    pruneLogsForGitHead none logs = logs ∧
    pruneLogsForGitHead (some "") logs = logs := by
  have ht : jsTruthyStr (some gitHead) = true := by
    simp [jsTruthyStr, hhead]
  have hlen : 0 < logs.length := List.length_pos.mpr hne
  refine ⟨?_, ?_, rfl, by simp [pruneLogsForGitHead, jsTruthyStr]⟩
  · simp only [pruneLogsForGitHead, ht, if_true]
    exact List.dropLast_append_getLast hne
  · simp only [pruneLogsForGitHead, ht, if_true, List.length_dropLast]
    omega

/-- Witness for the amended C5 theorem at a concrete two-entry log. -/
theorem c5_amended_witness :
    pruneLogsForGitHead (some "abc") [gitLogNewest, gitLogOldest] ++
        [List.getLast [gitLogNewest, gitLogOldest] (by simp)] =
      [gitLogNewest, gitLogOldest] ∧
    (pruneLogsForGitHead (some "abc") [gitLogNewest, gitLogOldest]).length + 1 =
      ([gitLogNewest, gitLogOldest] : List Git.GitLog).length ∧
    pruneLogsForGitHead none [gitLogNewest, gitLogOldest] =
      [gitLogNewest, gitLogOldest] ∧
    pruneLogsForGitHead (some "") [gitLogNewest, gitLogOldest] =
      [gitLogNewest, gitLogOldest] :=
  c5_amended_drops_oldest "abc" [gitLogNewest, gitLogOldest] (by decide) (by simp)

/-! ### Release decision on prerelease versions -/

theorem semver_inc_none (v : String) (identifier : Option String) :
    Semver.inc v none identifier = none := by
  unfold Semver.inc
  cases Semver.parse v <;> rfl

/-- C6 (code bug): for the prerelease current version `"2.0.0-rc.0"` the
decision engine takes the prerelease branch, but `ReleaseType.PRERELEASE` is
not a member of the declared enum, so the release type is `undefined`
(`none`) and `semver.inc` with it yields `null` — for any file log, changelog
changes and prerelease option, the resulting state carries no release type
and no release version instead of continuing the `rc` prerelease track. -/
theorem c6_prerelease_version_undefined_type
    (fileLogs : Option (List Git.GitFileLog))
    (changelogChanges : Option Changelogs.ChangelogChanges)
    (prereleaseOption : BoolOrString) :
    getSuggestedReleaseType "2.0.0-rc.0" fileLogs changelogChanges = none ∧
    computeReleaseState "2.0.0-rc.0" fileLogs changelogChanges prereleaseOption =
      ⟨none, none⟩ := by
  have h : Semver.prereleaseOf "2.0.0-rc.0" =
      some [Semver.PreId.str "rc", Semver.PreId.num 0] := by decide
  have hg : getSuggestedReleaseType "2.0.0-rc.0" fileLogs changelogChanges = none := by
    simp [getSuggestedReleaseType, h]
  refine ⟨hg, ?_⟩
  simp [computeReleaseState, hg, semver_inc_none]


/-! ### Release decision precedence and the prerelease re-increment -/

theorem fileLogsContainNativeChanges_iff (fileLogs : List Git.GitFileLog) :
    fileLogsContainNativeChanges fileLogs = true ↔
      ∃ l ∈ fileLogs, strStartsWith l.relativePath "ios/" = true ∨
        strStartsWith l.relativePath "android/" = true := by
  have hios : ("ios" ++ "/" : String) = "ios/" := rfl
  have hand : ("android" ++ "/" : String) = "android/" := rfl
  simp only [fileLogsContainNativeChanges, NATIVE_DIRECTORIES, List.any_eq_true,
    List.any_cons, List.any_nil, Bool.or_eq_true, Bool.or_false, hios, hand]

theorem semver_render_ne_empty (sv : Semver.SemVer) : Semver.render sv ≠ "" := by
  intro h
  have h0 : (Semver.render sv).length = 0 := by
    rw [h]
    rfl
  simp only [Semver.render, String.length_append] at h0
  have hdot : ("." : String).length = 1 := rfl
  rw [hdot] at h0
  omega

/-- C2: for a current version that is not a prerelease, the decision engine
returns `major` exactly when the breaking-changes category of the unreleased
(`master`) section is non-empty; otherwise `minor` exactly when some file-log
entry's relative path lies under `ios/` or `android/`; otherwise `patch` —
evaluated in that order, first match winning. -/
theorem c2_release_type_precedence (currentVersion : String)
    (fileLogs : List Git.GitFileLog)
    (changelogChanges : Changelogs.ChangelogChanges)
    (hpre : Semver.prereleaseOf currentVersion = none) :
    (getSuggestedReleaseType currentVersion (some fileLogs) (some changelogChanges) =
        some ReleaseType.major ↔
      ((Changelogs.lookupEntry changelogChanges.versions "master").bind fun cm =>
        Changelogs.lookupEntry cm Changelogs.ChangeType.BREAKING_CHANGES).getD [] ≠ []) ∧
    (getSuggestedReleaseType currentVersion (some fileLogs) (some changelogChanges) =
        some ReleaseType.minor ↔
      (¬ ((Changelogs.lookupEntry changelogChanges.versions "master").bind fun cm =>
          Changelogs.lookupEntry cm Changelogs.ChangeType.BREAKING_CHANGES).getD [] ≠ []) ∧
        (∃ l ∈ fileLogs, strStartsWith l.relativePath "ios/" = true ∨
          strStartsWith l.relativePath "android/" = true)) ∧
    (getSuggestedReleaseType currentVersion (some fileLogs) (some changelogChanges) =
        some ReleaseType.patch ↔
      (¬ ((Changelogs.lookupEntry changelogChanges.versions "master").bind fun cm =>
          Changelogs.lookupEntry cm Changelogs.ChangeType.BREAKING_CHANGES).getD [] ≠ []) ∧
        ¬ (∃ l ∈ fileLogs, strStartsWith l.relativePath "ios/" = true ∨
          strStartsWith l.relativePath "android/" = true)) := by
  have hnat := fileLogsContainNativeChanges_iff fileLogs
  simp only [getSuggestedReleaseType, hpre, Option.isSome_none, Bool.false_eq_true,
    if_false, Option.bind_some]
  by_cases hB : ((Changelogs.lookupEntry changelogChanges.versions "master").bind fun cm =>
      Changelogs.lookupEntry cm Changelogs.ChangeType.BREAKING_CHANGES).getD [] ≠ []
  · simp [hB]
  · by_cases hN : fileLogsContainNativeChanges fileLogs = true
    · simp [hB, hN, hnat.mp hN]
    · have hN2 : ¬ ∃ l ∈ fileLogs, strStartsWith l.relativePath "ios/" = true ∨
          strStartsWith l.relativePath "android/" = true := fun hc => hN (hnat.mpr hc)
      simp [hB, hN, hN2]

/-- Witness for C2: `"2.0.0"` with a native `ios/` file change and no breaking
changes decides `minor`. -/
theorem c2_witness :
    Semver.prereleaseOf "2.0.0" = none ∧
    getSuggestedReleaseType "2.0.0" (some [exampleNativeFileLog])
      (some emptyChangelogChanges) = some ReleaseType.minor :=
  ⟨by decide,
    ((c2_release_type_precedence "2.0.0" [exampleNativeFileLog] emptyChangelogChanges
      (by decide)).2.1).mpr (by decide)⟩

/-- C7 counterexample: on current version `"1.0.0"` with no changes and a
requested prerelease identifier `"beta"`, the computed state has no release
type and a `null` release version — in particular the version is not the
claimed `"1.0.1-beta.0"`. -/
theorem c7_counterexample :
    computeReleaseState "1.0.0" (some []) (some emptyChangelogChanges)
        (BoolOrString.ofString "beta") = ⟨none, none⟩ ∧
    (computeReleaseState "1.0.0" (some []) (some emptyChangelogChanges)
        (BoolOrString.ofString "beta")).releaseVersion ≠ some "1.0.1-beta.0" := by
  refine ⟨by decide, by decide⟩

/-- C7 (amended): for every valid non-prerelease current version, when a
prerelease identifier is requested the engine performs the normal bump and
then assigns `ReleaseType.PRERELEASE` — a member the enum does not declare,
hence `undefined` — before re-incrementing, so `semver.inc` returns `null`
and the final state has no release type and no release version (instead of
the claimed prerelease type and double-incremented version). -/
theorem c7_prerelease_request_yields_null (packageVersion : String)
    (sv : Semver.SemVer) (fileLogs : Option (List Git.GitFileLog))
    (changelogChanges : Option Changelogs.ChangelogChanges)
    (prereleaseOption : BoolOrString) (idStr : String)
    (hparse : Semver.parse packageVersion = some sv)
    (hpre : sv.prerelease = [])
    (hid : prereleaseIdentifierOf prereleaseOption = some idStr) :
    computeReleaseState packageVersion fileLogs changelogChanges prereleaseOption =
      ⟨none, none⟩ := by
  have hpo : Semver.prereleaseOf packageVersion = none := by
    simp [Semver.prereleaseOf, hparse, hpre]
  have hrt : ∃ rt, getSuggestedReleaseType packageVersion fileLogs changelogChanges =
      some rt := by
    simp only [getSuggestedReleaseType, hpo, Option.isSome_none, Bool.false_eq_true,
      if_false]
    split_ifs <;> exact ⟨_, rfl⟩
  obtain ⟨rt, hrt⟩ := hrt
  have hinc : Semver.inc packageVersion (some rt) none =
      some (Semver.render (Semver.incBy sv rt none)) := by
    simp [Semver.inc, hparse]
  simp only [computeReleaseState, hrt, hinc]
  rw [if_neg (semver_render_ne_empty (Semver.incBy sv rt none))]
  simp [hid, semver_inc_none]

/-- Witness for the amended C7 theorem at `"1.0.0"` with identifier `"beta"`. -/
theorem c7_amended_witness :
    Semver.parse "1.0.0" = some ⟨1, 0, 0, []⟩ ∧
    computeReleaseState "1.0.0" (some []) (some emptyChangelogChanges)
      (BoolOrString.ofString "beta") = ⟨none, none⟩ :=
  ⟨by decide,
    c7_prerelease_request_yields_null "1.0.0" ⟨1, 0, 0, []⟩ (some [])
      (some emptyChangelogChanges) (BoolOrString.ofString "beta") "beta"
      (by decide) rfl (by decide)⟩

end Expo

namespace Expo

open Changelogs

/-! ### Association-map lemmas for the changelog `versions` object -/

theorem lookupEntry_eq_none_iff {α : Type} (m : List (String × α)) (k : String) :
    lookupEntry m k = none ↔ ∀ p ∈ m, p.1 ≠ k := by
  induction m with
  | nil => simp [lookupEntry]
  | cons p ps ih =>
    by_cases hp : p.1 = k
    · simp [lookupEntry, hp]
    · simp [lookupEntry, hp, ih]

theorem lookupEntry_append {α : Type} (a b : List (String × α)) (k : String) :
    lookupEntry (a ++ b) k =
      match lookupEntry a k with
      | some v => some v
      | none => lookupEntry b k := by
  induction a with
  | nil => simp [lookupEntry]
  | cons p ps ih =>
    by_cases hp : p.1 = k
    · simp [lookupEntry, hp]
    · simp [lookupEntry, hp, ih]

theorem setDefaultEntry_of_none {α : Type} (m : List (String × α)) (k : String)
    (v : α) (h : lookupEntry m k = none) :
    setDefaultEntry m k v = m ++ [(k, v)] := by
  simp [setDefaultEntry, h]

theorem setDefaultEntry_of_some {α : Type} (m : List (String × α)) (k : String)
    (v w : α) (h : lookupEntry m k = some w) :
    setDefaultEntry m k v = m := by
  simp [setDefaultEntry, h]

theorem lookupEntry_setDefaultEntry_self {α : Type} (m : List (String × α))
    (k : String) (v : α) :
    lookupEntry (setDefaultEntry m k v) k = some ((lookupEntry m k).getD v) := by
  cases h : lookupEntry m k with
  | some w => simp [setDefaultEntry_of_some m k v w h, h]
  | none =>
    rw [setDefaultEntry_of_none m k v h, lookupEntry_append, h]
    simp [lookupEntry]

theorem lookupEntry_nil {α : Type} (k : String) :
    lookupEntry ([] : List (String × α)) k = none := rfl

theorem lookupEntry_cons {α : Type} (p : String × α) (ps : List (String × α))
    (k : String) :
    lookupEntry (p :: ps) k = if p.1 = k then some p.2 else lookupEntry ps k := rfl

theorem modifyEntry_nil {α : Type} (k : String) (f : α → α) :
    modifyEntry ([] : List (String × α)) k f = [] := rfl

theorem modifyEntry_cons {α : Type} (p : String × α) (ps : List (String × α))
    (k : String) (f : α → α) :
    modifyEntry (p :: ps) k f =
      (if p.1 = k then (p.1, f p.2) else p) :: modifyEntry ps k f := by
  simp only [modifyEntry, List.map_cons]

theorem lookupEntry_modifyEntry_self {α : Type} (m : List (String × α))
    (k : String) (f : α → α) :
    lookupEntry (modifyEntry m k f) k = (lookupEntry m k).map f := by
  induction m with
  | nil => simp [lookupEntry_nil, modifyEntry_nil]
  | cons p ps ih =>
    rw [modifyEntry_cons]
    by_cases hp : p.1 = k
    · simp [lookupEntry_cons, hp]
    · rw [if_neg hp, lookupEntry_cons, lookupEntry_cons, if_neg hp, if_neg hp, ih]

theorem modifyEntry_keys {α : Type} (m : List (String × α)) (k : String)
    (f : α → α) : (modifyEntry m k f).map Prod.fst = m.map Prod.fst := by
  induction m with
  | nil => simp [modifyEntry_nil]
  | cons p ps ih =>
    rw [modifyEntry_cons]
    by_cases hp : p.1 = k
    · simp only [if_pos hp, List.map_cons, ih]
    · simp only [if_neg hp, List.map_cons, ih]

theorem modifyEntry_of_none {α : Type} (m : List (String × α)) (k : String)
    (f : α → α) (h : lookupEntry m k = none) : modifyEntry m k f = m := by
  induction m with
  | nil => simp [modifyEntry_nil]
  | cons p ps ih =>
    rw [lookupEntry_cons] at h
    by_cases hp : p.1 = k
    · simp [hp] at h
    · rw [if_neg hp] at h
      rw [modifyEntry_cons, if_neg hp, ih h]

theorem modifyEntry_append {α : Type} (a b : List (String × α)) (k : String)
    (f : α → α) :
    modifyEntry (a ++ b) k f = modifyEntry a k f ++ modifyEntry b k f := by
  simp [modifyEntry]

theorem modifyEntry_append_fresh {α : Type} (m : List (String × α)) (k : String)
    (c : α) (f : α → α) (h : lookupEntry m k = none) :
    modifyEntry (m ++ [(k, c)]) k f = m ++ [(k, f c)] := by
  rw [modifyEntry_append, modifyEntry_of_none m k f h]
  simp [modifyEntry]

theorem mem_modifyEntry {α : Type} (m : List (String × α)) (k : String)
    (f : α → α) (q : String × α) (hq : q ∈ modifyEntry m k f) :
    q ∈ m ∨ ∃ p ∈ m, q = (p.1, f p.2) := by
  simp only [modifyEntry, List.mem_map] at hq
  obtain ⟨p, hp, hpq⟩ := hq
  by_cases h : p.1 = k
  · right
    exact ⟨p, hp, by rw [← hpq, if_pos h]⟩
  · left
    rw [← hpq, if_neg h]
    exact hp

/-! ### Counting lemmas -/

theorem countCatEntries_nil : countCatEntries [] = 0 := rfl

theorem countCatEntries_cons (p : String × List String) (ps : CategoryMap) :
    countCatEntries (p :: ps) = p.2.length + countCatEntries ps := by
  simp [countCatEntries]

theorem countVersionEntries_nil : countVersionEntries [] = 0 := rfl

theorem countVersionEntries_cons (p : String × CategoryMap) (ps : VersionsMap) :
    countVersionEntries (p :: ps) = countCatEntries p.2 + countVersionEntries ps := by
  simp [countVersionEntries]

theorem countCatEntries_append (a b : CategoryMap) :
    countCatEntries (a ++ b) = countCatEntries a + countCatEntries b := by
  simp [countCatEntries]

theorem countVersionEntries_append (a b : VersionsMap) :
    countVersionEntries (a ++ b) =
      countVersionEntries a + countVersionEntries b := by
  simp [countVersionEntries]

theorem countCatEntries_setDefaultEntry (cm : CategoryMap) (k : String) :
    countCatEntries (setDefaultEntry cm k []) = countCatEntries cm := by
  cases h : lookupEntry cm k with
  | some w => rw [setDefaultEntry_of_some cm k [] w h]
  | none =>
    rw [setDefaultEntry_of_none cm k [] h, countCatEntries_append]
    simp [countCatEntries]

theorem countVersionEntries_setDefaultEntry (m : VersionsMap) (k : String) :
    countVersionEntries (setDefaultEntry m k []) = countVersionEntries m := by
  cases h : lookupEntry m k with
  | some w => rw [setDefaultEntry_of_some m k [] w h]
  | none =>
    rw [setDefaultEntry_of_none m k [] h, countVersionEntries_append]
    simp [countVersionEntries, countCatEntries]

theorem countVersionEntries_modifyEntry_delta (m : VersionsMap) (k : String)
    (f : CategoryMap → CategoryMap) (cm : CategoryMap) (d : Nat)
    (hnodup : (m.map Prod.fst).Nodup) (hlook : lookupEntry m k = some cm)
    (hd : countCatEntries (f cm) = countCatEntries cm + d) :
    countVersionEntries (modifyEntry m k f) = countVersionEntries m + d := by
  induction m with
  | nil => simp [lookupEntry_nil] at hlook
  | cons p ps ih =>
    simp only [List.map_cons, List.nodup_cons] at hnodup
    rw [lookupEntry_cons] at hlook
    rw [modifyEntry_cons]
    by_cases hp : p.1 = k
    · rw [if_pos hp] at hlook
      obtain hlook := Option.some.inj hlook
      have hmiss : lookupEntry ps k = none := by
        rw [lookupEntry_eq_none_iff]
        intro q hq hqk
        have hmem := List.mem_map_of_mem Prod.fst hq
        rw [hqk] at hmem
        rw [hp] at hnodup
        exact hnodup.1 hmem
      rw [if_pos hp, modifyEntry_of_none ps k f hmiss,
        countVersionEntries_cons, countVersionEntries_cons]
      dsimp only
      subst hlook
      omega
    · rw [if_neg hp] at hlook
      rw [if_neg hp, countVersionEntries_cons, countVersionEntries_cons,
        ih hnodup.2 hlook]
      omega

theorem countCatEntries_modifyEntry_push (cm : CategoryMap) (cs : String)
    (txt : String) (es : List String)
    (hnodup : (cm.map Prod.fst).Nodup) (hlook : lookupEntry cm cs = some es) :
    countCatEntries (modifyEntry cm cs (fun l => l ++ [txt])) =
      countCatEntries cm + 1 := by
  induction cm with
  | nil => simp [lookupEntry_nil] at hlook
  | cons p ps ih =>
    simp only [List.map_cons, List.nodup_cons] at hnodup
    rw [lookupEntry_cons] at hlook
    rw [modifyEntry_cons]
    by_cases hp : p.1 = cs
    · have hmiss : lookupEntry ps cs = none := by
        rw [lookupEntry_eq_none_iff]
        intro q hq hqk
        have hmem := List.mem_map_of_mem Prod.fst hq
        rw [hqk] at hmem
        rw [hp] at hnodup
        exact hnodup.1 hmem
      rw [if_pos hp, modifyEntry_of_none ps cs _ hmiss,
        countCatEntries_cons, countCatEntries_cons]
      dsimp only
      simp only [List.length_append, List.length_cons, List.length_nil]
      omega
    · rw [if_neg hp] at hlook
      rw [if_neg hp, countCatEntries_cons, countCatEntries_cons, ih hnodup.2 hlook]
      omega


theorem lookupEntry_mem {α : Type} (m : List (String × α)) (k : String) (v : α)
    (h : lookupEntry m k = some v) : (k, v) ∈ m := by
  induction m with
  | nil => simp [lookupEntry_nil] at h
  | cons p ps ih =>
    rw [lookupEntry_cons] at h
    by_cases hp : p.1 = k
    · rw [if_pos hp] at h
      obtain h := Option.some.inj h
      have hpkv : p = (k, v) := by
        rw [Prod.ext_iff]
        exact ⟨hp, h⟩
      rw [← hpkv]
      exact List.mem_cons_self p ps
    · rw [if_neg hp] at h
      exact List.mem_cons_of_mem p (ih h)

theorem lookupEntry_none_not_mem_keys {α : Type} (m : List (String × α))
    (k : String) (h : lookupEntry m k = none) : k ∉ m.map Prod.fst := by
  rw [lookupEntry_eq_none_iff] at h
  intro hk
  obtain ⟨p, hp, hpk⟩ := List.mem_map.mp hk
  exact h p hp hpk

theorem setDefaultEntry_keys_nodup {α : Type} (m : List (String × α))
    (k : String) (v : α) (h : (m.map Prod.fst).Nodup) :
    ((setDefaultEntry m k v).map Prod.fst).Nodup := by
  cases hl : lookupEntry m k with
  | some w =>
    rw [setDefaultEntry_of_some m k v w hl]
    exact h
  | none =>
    rw [setDefaultEntry_of_none m k v hl, List.map_append]
    have hk := lookupEntry_none_not_mem_keys m k hl
    simp only [List.map_cons, List.map_nil, List.nodup_append, List.nodup_cons,
      List.not_mem_nil, not_false_iff, List.nodup_nil, and_true, true_and]
    exact ⟨h, by simpa [List.disjoint_singleton] using hk⟩

theorem mem_setDefaultEntry {α : Type} (m : List (String × α)) (k : String)
    (v : α) (q : String × α) (hq : q ∈ setDefaultEntry m k v) :
    q ∈ m ∨ q = (k, v) := by
  cases hl : lookupEntry m k with
  | some w =>
    rw [setDefaultEntry_of_some m k v w hl] at hq
    exact Or.inl hq
  | none =>
    rw [setDefaultEntry_of_none m k v hl] at hq
    simpa using List.mem_append.mp hq

/-! ### Step lemmas for the `getChangesAsync` loop invariant -/

theorem step_version_heading (st : GetChangesState) (txt : String)
    (hok : keysOk st) :
    keysOk { st with currentVersion := some txt, currentSection := none,
                     versions := setDefaultEntry st.versions txt [] } ∧
    countVersionEntries (setDefaultEntry st.versions txt []) =
      countVersionEntries st.versions ∧
    (entriesNonempty st.versions →
      entriesNonempty (setDefaultEntry st.versions txt [])) := by
  obtain ⟨hn1, hn2, _⟩ := hok
  refine ⟨⟨?_, ?_, ?_⟩, countVersionEntries_setDefaultEntry st.versions txt, ?_⟩
  · exact setDefaultEntry_keys_nodup st.versions txt [] hn1
  · intro p hp
    have hp' : p ∈ setDefaultEntry st.versions txt [] := hp
    rcases mem_setDefaultEntry st.versions txt [] p hp' with hmem | hnew
    · exact hn2 p hmem
    · simp [hnew]
  · intro cv' hcv'
    have hcv2 : txt = cv' := by simpa using hcv'
    subst hcv2
    refine ⟨(lookupEntry st.versions txt).getD [],
      lookupEntry_setDefaultEntry_self st.versions txt [], ?_⟩
    intro cs hcs
    simp at hcs
  · intro hne p hp
    have hp' : p ∈ setDefaultEntry st.versions txt [] := hp
    rcases mem_setDefaultEntry st.versions txt [] p hp' with hmem | hnew
    · exact hne p hmem
    · simp [hnew]

theorem step_category_heading (st : GetChangesState) (cv txt : String)
    (hok : keysOk st) (hcv : st.currentVersion = some cv) :
    keysOk { st with currentSection := some txt,
                     versions := modifyEntry st.versions cv
                       (fun cm => setDefaultEntry cm txt []) } ∧
    countVersionEntries (modifyEntry st.versions cv
        (fun cm => setDefaultEntry cm txt [])) = countVersionEntries st.versions ∧
    (entriesNonempty st.versions →
      entriesNonempty (modifyEntry st.versions cv
        (fun cm => setDefaultEntry cm txt []))) := by
  obtain ⟨hn1, hn2, hcur⟩ := hok
  obtain ⟨cm, hcm, _⟩ := hcur cv hcv
  refine ⟨⟨?_, ?_, ?_⟩, ?_, ?_⟩
  · show ((modifyEntry st.versions cv (fun cm => setDefaultEntry cm txt [])).map
      Prod.fst).Nodup
    rw [modifyEntry_keys]
    exact hn1
  · intro p hp
    have hp' : p ∈ modifyEntry st.versions cv (fun cm => setDefaultEntry cm txt []) := hp
    rcases mem_modifyEntry st.versions cv (fun cm => setDefaultEntry cm txt []) p hp'
      with hmem | ⟨q, hq, hpq⟩
    · exact hn2 p hmem
    · rw [hpq]
      show (((setDefaultEntry q.2 txt []) : CategoryMap).map Prod.fst).Nodup
      exact setDefaultEntry_keys_nodup q.2 txt [] (hn2 q hq)
  · intro cv' hcv'
    have hcv2 : st.currentVersion = some cv' := hcv'
    rw [hcv] at hcv2
    obtain hcveq := Option.some.inj hcv2
    subst hcveq
    refine ⟨setDefaultEntry cm txt [], ?_, ?_⟩
    · show lookupEntry (modifyEntry st.versions cv (fun cm => setDefaultEntry cm txt []))
        cv = some (setDefaultEntry cm txt [])
      rw [lookupEntry_modifyEntry_self, hcm]
      rfl
    · intro cs hcs
      have hcs2 : txt = cs := by simpa using hcs
      subst hcs2
      exact ⟨(lookupEntry cm txt).getD [], lookupEntry_setDefaultEntry_self cm txt []⟩
  · exact countVersionEntries_modifyEntry_delta st.versions cv _ cm 0 hn1 hcm
      (by simpa using countCatEntries_setDefaultEntry cm txt)
  · intro hne p hp
    rcases mem_modifyEntry st.versions cv (fun cm => setDefaultEntry cm txt []) p hp
      with hmem | ⟨q, hq, hpq⟩
    · exact hne p hmem
    · rw [hpq]
      intro c hc e he
      have hc' : c ∈ setDefaultEntry q.2 txt [] := hc
      rcases mem_setDefaultEntry q.2 txt [] c hc' with hcm2 | hcnew
      · exact hne q hq c hcm2 e he
      · rw [hcnew] at he
        simp at he

theorem step_push (st : GetChangesState) (txt : String) (cv cs : String)
    (hok : keysOk st) (hcv : st.currentVersion = some cv)
    (hcs : st.currentSection = some cs) (htxt : txt ≠ "") :
    keysOk (pushItemText st txt) ∧
    (pushItemText st txt).totalCount = st.totalCount + 1 ∧
    countVersionEntries (pushItemText st txt).versions =
      countVersionEntries st.versions + 1 ∧
    (entriesNonempty st.versions →
      entriesNonempty (pushItemText st txt).versions) ∧
    (pushItemText st txt).currentVersion = st.currentVersion ∧
    (pushItemText st txt).currentSection = st.currentSection ∧
    (pushItemText st txt).inItem = st.inItem := by
  obtain ⟨hn1, hn2, hcur⟩ := hok
  obtain ⟨cm, hcm, hsec⟩ := hcur cv hcv
  obtain ⟨es, hes⟩ := hsec cs hcs
  have hcmnodup : (cm.map Prod.fst).Nodup := hn2 (cv, cm) (lookupEntry_mem _ _ _ hcm)
  have hpush : pushItemText st txt =
      { st with
        totalCount := st.totalCount + 1
        versions := modifyEntry st.versions cv
          (fun c => modifyEntry c cs (fun l => l ++ [txt])) } := by
    rw [pushItemText, hcv, hcs]
  rw [hpush]
  refine ⟨⟨?_, ?_, ?_⟩, rfl, ?_, ?_, rfl, rfl, rfl⟩
  · show ((modifyEntry st.versions cv
      (fun c => modifyEntry c cs (fun l => l ++ [txt]))).map Prod.fst).Nodup
    rw [modifyEntry_keys]
    exact hn1
  · intro p hp
    have hp' : p ∈ modifyEntry st.versions cv
        (fun c => modifyEntry c cs (fun l => l ++ [txt])) := hp
    rcases mem_modifyEntry st.versions cv
        (fun c => modifyEntry c cs (fun l => l ++ [txt])) p hp'
      with hmem | ⟨q, hq, hpq⟩
    · exact hn2 p hmem
    · rw [hpq]
      show ((modifyEntry q.2 cs (fun l => l ++ [txt])).map Prod.fst).Nodup
      rw [modifyEntry_keys]
      exact hn2 q hq
  · intro cv' hcv'
    have hcv2 : st.currentVersion = some cv' := hcv'
    rw [hcv] at hcv2
    obtain hcveq := Option.some.inj hcv2
    subst hcveq
    refine ⟨modifyEntry cm cs (fun l => l ++ [txt]), ?_, ?_⟩
    · show lookupEntry (modifyEntry st.versions cv
        (fun c => modifyEntry c cs (fun l => l ++ [txt]))) cv =
          some (modifyEntry cm cs (fun l => l ++ [txt]))
      rw [lookupEntry_modifyEntry_self, hcm]
      rfl
    · intro cs' hcs'
      have hcs2 : st.currentSection = some cs' := hcs'
      rw [hcs] at hcs2
      obtain hcseq := Option.some.inj hcs2
      subst hcseq
      refine ⟨es ++ [txt], ?_⟩
      rw [lookupEntry_modifyEntry_self, hes]
      rfl
  · exact countVersionEntries_modifyEntry_delta st.versions cv _ cm 1 hn1 hcm
      (countCatEntries_modifyEntry_push cm cs txt es hcmnodup hes)
  · intro hne p hp
    rcases mem_modifyEntry st.versions cv
        (fun c => modifyEntry c cs (fun l => l ++ [txt])) p hp
      with hmem | ⟨q, hq, hpq⟩
    · exact hne p hmem
    · rw [hpq]
      intro c hc e he
      have hc' : c ∈ modifyEntry q.2 cs (fun l => l ++ [txt]) := hc
      rcases mem_modifyEntry q.2 cs (fun l => l ++ [txt]) c hc'
        with hcm2 | ⟨r, hr, hcr⟩
      · exact hne q hq c hcm2 e he
      · rw [hcr] at he
        rcases List.mem_append.mp he with hold | hnew
        · exact hne q hq r hr e hold
        · rw [List.mem_singleton.mp hnew]
          exact htxt


theorem step_push_cases (st : GetChangesState) (txt : String) (hok : keysOk st)
    (htxt : txt ≠ "") :
    keysOk (pushItemText st txt) ∧
    (pushItemText st txt).totalCount + countVersionEntries st.versions =
      st.totalCount + countVersionEntries (pushItemText st txt).versions ∧
    (entriesNonempty st.versions →
      entriesNonempty (pushItemText st txt).versions) := by
  cases hcv : st.currentVersion with
  | none =>
    have h : pushItemText st txt = st := by
      cases hcs : st.currentSection <;> simp [pushItemText, hcv, hcs]
    rw [h]
    exact ⟨hok, rfl, fun h => h⟩
  | some cv =>
    cases hcs : st.currentSection with
    | none =>
      have h : pushItemText st txt = st := by
        simp [pushItemText, hcv, hcs]
      rw [h]
      exact ⟨hok, rfl, fun h => h⟩
    | some cs =>
      obtain ⟨h1, h2, h3, h4, _⟩ := step_push st txt cv cs hok hcv hcs htxt
      exact ⟨h1, by omega, h4⟩

theorem walk_chain (fromVersion : Option String) (toVersion : String)
    (rest : List Markdown.Token) (st st' : GetChangesState)
    (ih : ∀ s, keysOk s →
      keysOk (walkTokens fromVersion toVersion rest s) ∧
      (walkTokens fromVersion toVersion rest s).totalCount +
          countVersionEntries s.versions =
        s.totalCount + countVersionEntries (walkTokens fromVersion toVersion rest s).versions ∧
      (entriesNonempty s.versions →
        entriesNonempty (walkTokens fromVersion toVersion rest s).versions))
    (hok' : keysOk st')
    (hcount : st'.totalCount + countVersionEntries st.versions =
      st.totalCount + countVersionEntries st'.versions)
    (hne : entriesNonempty st.versions → entriesNonempty st'.versions) :
    keysOk (walkTokens fromVersion toVersion rest st') ∧
    (walkTokens fromVersion toVersion rest st').totalCount +
        countVersionEntries st.versions =
      st.totalCount + countVersionEntries (walkTokens fromVersion toVersion rest st').versions ∧
    (entriesNonempty st.versions →
      entriesNonempty (walkTokens fromVersion toVersion rest st').versions) := by
  obtain ⟨ik, ic, ine⟩ := ih st' hok'
  exact ⟨ik, by omega, fun h => ine (hne h)⟩

theorem walkTokens_invariant (fromVersion : Option String) (toVersion : String)
    (tokens : List Markdown.Token) :
    ∀ (st : GetChangesState), keysOk st →
      keysOk (walkTokens fromVersion toVersion tokens st) ∧
      (walkTokens fromVersion toVersion tokens st).totalCount +
          countVersionEntries st.versions =
        st.totalCount +
          countVersionEntries (walkTokens fromVersion toVersion tokens st).versions ∧
      (entriesNonempty st.versions →
        entriesNonempty (walkTokens fromVersion toVersion tokens st).versions) := by
  induction tokens with
  | nil =>
    intro st hok
    exact ⟨hok, rfl, fun h => h⟩
  | cons tok rest ih =>
    intro st hok
    cases hitem : st.inItem with
    | true =>
      cases tok with
      | listItemEnd =>
        have heq : walkTokens fromVersion toVersion
            (Markdown.Token.listItemEnd :: rest) st =
            walkTokens fromVersion toVersion rest { st with inItem := false } := by
          simp [walkTokens, hitem]
        rw [heq]
        exact walk_chain fromVersion toVersion rest st { st with inItem := false }
          ih hok rfl (fun h => h)
      | heading depth txt =>
        by_cases ht : txt ≠ ""
        · have heq : walkTokens fromVersion toVersion
              (Markdown.Token.heading depth txt :: rest) st =
              walkTokens fromVersion toVersion rest
                (pushItemText st ((Markdown.Token.heading depth txt).getText)) := by
            simp [walkTokens, hitem, Markdown.Token.getText, ht]
          rw [heq]
          obtain ⟨h1, h2, h3⟩ := step_push_cases st txt hok ht
          exact walk_chain fromVersion toVersion rest st (pushItemText st txt)
            ih h1 h2 h3
        · rw [not_not] at ht
          have heq : walkTokens fromVersion toVersion
              (Markdown.Token.heading depth txt :: rest) st =
              walkTokens fromVersion toVersion rest st := by
            simp [walkTokens, hitem, Markdown.Token.getText, ht]
          rw [heq]
          exact walk_chain fromVersion toVersion rest st st ih hok rfl (fun h => h)
      | text s =>
        by_cases ht : s ≠ ""
        · have heq : walkTokens fromVersion toVersion
              (Markdown.Token.text s :: rest) st =
              walkTokens fromVersion toVersion rest
                (pushItemText st ((Markdown.Token.text s).getText)) := by
            simp [walkTokens, hitem, Markdown.Token.getText, ht]
          rw [heq]
          obtain ⟨h1, h2, h3⟩ := step_push_cases st s hok ht
          exact walk_chain fromVersion toVersion rest st (pushItemText st s)
            ih h1 h2 h3
        · rw [not_not] at ht
          have heq : walkTokens fromVersion toVersion
              (Markdown.Token.text s :: rest) st =
              walkTokens fromVersion toVersion rest st := by
            simp [walkTokens, hitem, Markdown.Token.getText, ht]
          rw [heq]
          exact walk_chain fromVersion toVersion rest st st ih hok rfl (fun h => h)
      | listItemStart =>
        have heq : walkTokens fromVersion toVersion
            (Markdown.Token.listItemStart :: rest) st =
            walkTokens fromVersion toVersion rest st := by
          simp [walkTokens, hitem, Markdown.Token.getText]
        rw [heq]
        exact walk_chain fromVersion toVersion rest st st ih hok rfl (fun h => h)
    | false =>
      cases tok with
      | heading depth txt =>
        by_cases hd2 : depth = Changelogs.VERSION_HEADING_DEPTH
        · by_cases hbrk : txt ≠ toVersion ∧ (fromVersion = none ∨ fromVersion = some txt)
          · have heq : walkTokens fromVersion toVersion
                (Markdown.Token.heading depth txt :: rest) st = st := by
              simp [walkTokens, hitem, hd2, hbrk]
            rw [heq]
            exact ⟨hok, rfl, fun h => h⟩
          · have heq : walkTokens fromVersion toVersion
                (Markdown.Token.heading depth txt :: rest) st =
                walkTokens fromVersion toVersion rest
                  { st with currentVersion := some txt, currentSection := none,
                            versions := setDefaultEntry st.versions txt [] } := by
              simp [walkTokens, hitem, hd2, hbrk]
            rw [heq]
            obtain ⟨h1, h2, h3⟩ := step_version_heading st txt hok
            refine walk_chain fromVersion toVersion rest st _ ih h1 ?_ h3
            show st.totalCount + countVersionEntries st.versions =
              st.totalCount + countVersionEntries (setDefaultEntry st.versions txt [])
            rw [h2]
        · by_cases hd3 : depth = Changelogs.CHANGE_TYPE_HEADING_DEPTH
          · cases hcv : st.currentVersion with
            | some cv =>
              have heq : walkTokens fromVersion toVersion
                  (Markdown.Token.heading depth txt :: rest) st =
                  walkTokens fromVersion toVersion rest
                    { st with currentSection := some txt,
                              versions := modifyEntry st.versions cv
                                (fun cm => setDefaultEntry cm txt []) } := by
                simp [walkTokens, hitem, hd2, hd3, hcv,
                  Changelogs.VERSION_HEADING_DEPTH, Changelogs.CHANGE_TYPE_HEADING_DEPTH]
              rw [heq]
              obtain ⟨h1, h2, h3⟩ := step_category_heading st cv txt hok hcv
              refine walk_chain fromVersion toVersion rest st _ ih h1 ?_ h3
              show st.totalCount + countVersionEntries st.versions =
                st.totalCount + countVersionEntries (modifyEntry st.versions cv
                  (fun cm => setDefaultEntry cm txt []))
              rw [h2]
            | none =>
              have heq : walkTokens fromVersion toVersion
                  (Markdown.Token.heading depth txt :: rest) st =
                  walkTokens fromVersion toVersion rest st := by
                simp [walkTokens, hitem, hd2, hd3, hcv,
                  Changelogs.VERSION_HEADING_DEPTH, Changelogs.CHANGE_TYPE_HEADING_DEPTH]
              rw [heq]
              exact walk_chain fromVersion toVersion rest st st ih hok rfl (fun h => h)
          · have heq : walkTokens fromVersion toVersion
                (Markdown.Token.heading depth txt :: rest) st =
                walkTokens fromVersion toVersion rest st := by
              simp [walkTokens, hitem, hd2, hd3]
            rw [heq]
            exact walk_chain fromVersion toVersion rest st st ih hok rfl (fun h => h)
      | listItemStart =>
        cases hcv : st.currentVersion with
        | some cv =>
          cases hcs : st.currentSection with
          | some cs =>
            have heq : walkTokens fromVersion toVersion
                (Markdown.Token.listItemStart :: rest) st =
                walkTokens fromVersion toVersion rest { st with inItem := true } := by
              simp [walkTokens, hitem, hcv, hcs]
            rw [heq]
            exact walk_chain fromVersion toVersion rest st { st with inItem := true }
              ih hok rfl (fun h => h)
          | none =>
            have heq : walkTokens fromVersion toVersion
                (Markdown.Token.listItemStart :: rest) st =
                walkTokens fromVersion toVersion rest st := by
              simp [walkTokens, hitem, hcv, hcs]
            rw [heq]
            exact walk_chain fromVersion toVersion rest st st ih hok rfl (fun h => h)
        | none =>
          have heq : walkTokens fromVersion toVersion
              (Markdown.Token.listItemStart :: rest) st =
              walkTokens fromVersion toVersion rest st := by
            cases hcs : st.currentSection <;> simp [walkTokens, hitem, hcv, hcs]
          rw [heq]
          exact walk_chain fromVersion toVersion rest st st ih hok rfl (fun h => h)
      | listItemEnd =>
        have heq : walkTokens fromVersion toVersion
            (Markdown.Token.listItemEnd :: rest) st =
            walkTokens fromVersion toVersion rest st := by
          simp [walkTokens, hitem]
        rw [heq]
        exact walk_chain fromVersion toVersion rest st st ih hok rfl (fun h => h)
      | text s =>
        have heq : walkTokens fromVersion toVersion
            (Markdown.Token.text s :: rest) st =
            walkTokens fromVersion toVersion rest st := by
          simp [walkTokens, hitem]
        rw [heq]
        exact walk_chain fromVersion toVersion rest st st ih hok rfl (fun h => h)


/-- C9: for every token stream (in particular every changelog document), list
items with empty text are never added to any category's entry sequence and
never increment `totalCount`: the returned `totalCount` always equals the
total number of collected entry texts across all returned version sections,
and every collected entry text is non-empty. -/
theorem c9_totalcount_counts_nonempty_entries (tokens : List Markdown.Token)
    (fromVersion : Option String) (toVersion : String) :
    (getChanges tokens fromVersion toVersion).totalCount =
      countVersionEntries (getChanges tokens fromVersion toVersion).versions ∧
    (∀ p ∈ (getChanges tokens fromVersion toVersion).versions,
      ∀ c ∈ p.2, ∀ e ∈ c.2, e ≠ "") := by
  have hinit : keysOk (⟨none, none, false, [], 0⟩ : GetChangesState) := by
    refine ⟨List.nodup_nil, ?_, ?_⟩
    · intro p hp
      simp at hp
    · intro cv hcv
      simp at hcv
  obtain ⟨_, hc, hne⟩ := walkTokens_invariant fromVersion toVersion tokens
    ⟨none, none, false, [], 0⟩ hinit
  have hne2 := hne (by intro p hp; simp at hp)
  constructor
  · show (walkTokens fromVersion toVersion tokens ⟨none, none, false, [], 0⟩).totalCount =
      countVersionEntries
        (walkTokens fromVersion toVersion tokens ⟨none, none, false, [], 0⟩).versions
    have hzero : countVersionEntries
        ((⟨none, none, false, [], 0⟩ : GetChangesState)).versions = 0 := rfl
    have hzero2 : ((⟨none, none, false, [], 0⟩ : GetChangesState)).totalCount = 0 := rfl
    omega
  · intro p hp c hc2 e he
    exact hne2 p hp c hc2 e he


/-! ### Section-level reading of the token walk (for C8) -/

theorem walk_entry_list (fromVersion : Option String) (toVersion : String)
    (cat : String) (es : List String) :
    ∀ (ts : List Markdown.Token) (l : String) (V : VersionsMap)
      (cm : CategoryMap) (prev : List String) (n : Nat),
      lookupEntry V l = none → lookupEntry cm cat = none →
      walkTokens fromVersion toVersion ((es.map itemTokens).flatten ++ ts)
        ⟨some l, some cat, false, V ++ [(l, cm ++ [(cat, prev)])], n⟩ =
      walkTokens fromVersion toVersion ts
        ⟨some l, some cat, false,
          V ++ [(l, cm ++ [(cat, prev ++ es.filter (fun e => e ≠ ""))])],
          n + (es.filter (fun e => e ≠ "")).length⟩ := by
  induction es with
  | nil =>
    intro ts l V cm prev n hV hC
    simp
  | cons e rest ih =>
    intro ts l V cm prev n hV hC
    have hmod : modifyEntry (V ++ [(l, cm ++ [(cat, prev)])]) l
        (fun c => modifyEntry c cat (fun es => es ++ [e])) =
        V ++ [(l, cm ++ [(cat, prev ++ [e])])] := by
      rw [modifyEntry_append_fresh V l (cm ++ [(cat, prev)]) _ hV,
        modifyEntry_append_fresh cm cat prev _ hC]
    by_cases he : e = ""
    · subst he
      have heq : walkTokens fromVersion toVersion
          (((("" :: rest).map itemTokens).flatten) ++ ts)
          ⟨some l, some cat, false, V ++ [(l, cm ++ [(cat, prev)])], n⟩ =
          walkTokens fromVersion toVersion ((rest.map itemTokens).flatten ++ ts)
          ⟨some l, some cat, false, V ++ [(l, cm ++ [(cat, prev)])], n⟩ := by
        simp [itemTokens, walkTokens, Markdown.Token.getText]
      rw [heq, ih ts l V cm prev n hV hC]
      congr 1
    · have heq : walkTokens fromVersion toVersion
          ((((e :: rest).map itemTokens).flatten) ++ ts)
          ⟨some l, some cat, false, V ++ [(l, cm ++ [(cat, prev)])], n⟩ =
          walkTokens fromVersion toVersion ((rest.map itemTokens).flatten ++ ts)
          ⟨some l, some cat, false, V ++ [(l, cm ++ [(cat, prev ++ [e])])], n + 1⟩ := by
        simp [itemTokens, walkTokens, Markdown.Token.getText, he, pushItemText, hmod]
      rw [heq, ih ts l V cm (prev ++ [e]) (n + 1) hV hC]
      congr 1
      rw [GetChangesState.mk.injEq]
      refine ⟨rfl, rfl, rfl, ?_, ?_⟩
      · simp [List.filter_cons, he, List.append_assoc]
      · simp [List.filter_cons, he]
        try omega

theorem walk_category_tokens (fromVersion : Option String) (toVersion : String)
    (c : String × List String) (ts : List Markdown.Token) (l : String)
    (V : VersionsMap) (cm : CategoryMap) (cs0 : Option String) (n : Nat)
    (hV : lookupEntry V l = none) (hC : lookupEntry cm c.1 = none) :
    walkTokens fromVersion toVersion (categoryTokens c ++ ts)
      ⟨some l, cs0, false, V ++ [(l, cm)], n⟩ =
    walkTokens fromVersion toVersion ts
      ⟨some l, some c.1, false,
        V ++ [(l, cm ++ [(c.1, c.2.filter (fun e => e ≠ ""))])],
        n + (c.2.filter (fun e => e ≠ "")).length⟩ := by
  have hset : modifyEntry (V ++ [(l, cm)]) l (fun m => setDefaultEntry m c.1 []) =
      V ++ [(l, cm ++ [(c.1, [])])] := by
    rw [modifyEntry_append_fresh V l cm _ hV, setDefaultEntry_of_none cm c.1 [] hC]
  have heq : walkTokens fromVersion toVersion (categoryTokens c ++ ts)
      ⟨some l, cs0, false, V ++ [(l, cm)], n⟩ =
      walkTokens fromVersion toVersion ((c.2.map itemTokens).flatten ++ ts)
      ⟨some l, some c.1, false, V ++ [(l, cm ++ [(c.1, [])])], n⟩ := by
    simp [categoryTokens, walkTokens, Changelogs.VERSION_HEADING_DEPTH,
      Changelogs.CHANGE_TYPE_HEADING_DEPTH, hset]
  rw [heq, walk_entry_list fromVersion toVersion c.1 c.2 ts l V cm [] n hV hC]
  congr 1


theorem walk_categories_tokens (fromVersion : Option String) (toVersion : String)
    (cats : List (String × List String)) :
    ∀ (ts : List Markdown.Token) (l : String) (V : VersionsMap) (cm : CategoryMap)
      (cs0 : Option String) (n : Nat),
      lookupEntry V l = none →
      (∀ c ∈ cats, lookupEntry cm c.1 = none) →
      (cats.map Prod.fst).Nodup →
      ∃ csf : Option String,
        walkTokens fromVersion toVersion ((cats.map categoryTokens).flatten ++ ts)
          ⟨some l, cs0, false, V ++ [(l, cm)], n⟩ =
        walkTokens fromVersion toVersion ts
          ⟨some l, csf, false,
            V ++ [(l, cm ++ cats.map (fun c => (c.1, c.2.filter (fun e => e ≠ ""))))],
            n + (cats.map (fun c => (c.2.filter (fun e => e ≠ "")).length)).sum⟩ := by
  induction cats with
  | nil =>
    intro ts l V cm cs0 n hV _ _
    exact ⟨cs0, by simp⟩
  | cons c rest ih =>
    intro ts l V cm cs0 n hV hfresh hnodup
    simp only [List.map_cons, List.flatten_cons, List.append_assoc]
    rw [walk_category_tokens fromVersion toVersion c
      ((rest.map categoryTokens).flatten ++ ts) l V cm cs0 n hV
      (hfresh c (List.mem_cons_self c rest))]
    have hfresh' : ∀ c' ∈ rest,
        lookupEntry (cm ++ [(c.1, c.2.filter (fun e => e ≠ ""))]) c'.1 = none := by
      intro c' hc'
      rw [lookupEntry_append, hfresh c' (List.mem_cons_of_mem c hc')]
      have hne : c.1 ≠ c'.1 := by
        intro hcc
        have : c.1 ∈ rest.map Prod.fst := by
          rw [hcc]
          exact List.mem_map_of_mem Prod.fst hc'
        exact (List.nodup_cons.mp hnodup).1 this
      simp [lookupEntry, hne]
    obtain ⟨csf, hw⟩ := ih ts l V (cm ++ [(c.1, c.2.filter (fun e => e ≠ ""))])
      (some c.1) (n + (c.2.filter (fun e => e ≠ "")).length) hV hfresh'
      (List.nodup_cons.mp hnodup).2
    have hstate :
        (⟨some l, csf, false,
          V ++ [(l, (cm ++ [(c.1, c.2.filter (fun e => e ≠ ""))]) ++
            rest.map (fun c => (c.1, c.2.filter (fun e => e ≠ ""))))],
          n + (c.2.filter (fun e => e ≠ "")).length +
            (rest.map (fun c => (c.2.filter (fun e => e ≠ "")).length)).sum⟩ :
            GetChangesState) =
        ⟨some l, csf, false,
          V ++ [(l, cm ++ ((c.1, c.2.filter (fun e => e ≠ "")) ::
            rest.map (fun c => (c.1, c.2.filter (fun e => e ≠ "")))))],
          n + ((c.2.filter (fun e => e ≠ "")).length ::
            rest.map (fun c => (c.2.filter (fun e => e ≠ "")).length)).sum⟩ := by
      rw [GetChangesState.mk.injEq]
      refine ⟨rfl, rfl, rfl, ?_, ?_⟩
      · rw [List.append_assoc]
        rfl
      · simp only [List.sum_cons]
        omega
    refine ⟨csf, ?_⟩
    rw [hw, hstate]

theorem walk_section_break (fromVersion : Option String) (toVersion : String)
    (s : ChangelogSection) (ts : List Markdown.Token) (st : GetChangesState)
    (hitem : st.inItem = false)
    (hbrk : s.label ≠ toVersion ∧ (fromVersion = none ∨ fromVersion = some s.label)) :
    walkTokens fromVersion toVersion (sectionTokens s ++ ts) st = st := by
  simp [sectionTokens, walkTokens, hitem, Changelogs.VERSION_HEADING_DEPTH, hbrk]

theorem walk_section_tokens (fromVersion : Option String) (toVersion : String)
    (s : ChangelogSection) (ts : List Markdown.Token) (st : GetChangesState)
    (hitem : st.inItem = false)
    (hfresh : lookupEntry st.versions s.label = none)
    (hnodup : (s.categories.map Prod.fst).Nodup)
    (hbrk : ¬(s.label ≠ toVersion ∧ (fromVersion = none ∨ fromVersion = some s.label))) :
    ∃ csf : Option String,
      walkTokens fromVersion toVersion (sectionTokens s ++ ts) st =
      walkTokens fromVersion toVersion ts
        ⟨some s.label, csf, false, st.versions ++ [sectionChanges s],
          st.totalCount + sectionCount s⟩ := by
  have heq : walkTokens fromVersion toVersion (sectionTokens s ++ ts) st =
      walkTokens fromVersion toVersion ((s.categories.map categoryTokens).flatten ++ ts)
        ⟨some s.label, none, false, st.versions ++ [(s.label, [])], st.totalCount⟩ := by
    simp [sectionTokens, walkTokens, hitem, Changelogs.VERSION_HEADING_DEPTH, hbrk,
      setDefaultEntry_of_none st.versions s.label [] hfresh]
  obtain ⟨csf, hw⟩ := walk_categories_tokens fromVersion toVersion s.categories ts
    s.label st.versions [] none st.totalCount hfresh (fun c _ => rfl) hnodup
  exact ⟨csf, heq.trans hw⟩

theorem walk_doc_tokens (fromVersion : Option String) (toVersion : String)
    (doc : List ChangelogSection) :
    ∀ (st : GetChangesState), st.inItem = false →
      (doc.map (fun s => s.label)).Nodup →
      (∀ s ∈ doc, (s.categories.map Prod.fst).Nodup) →
      (∀ s ∈ doc, lookupEntry st.versions s.label = none) →
      (walkTokens fromVersion toVersion (docTokens doc) st).versions =
        st.versions ++ (collectSections fromVersion toVersion doc).map sectionChanges ∧
      (walkTokens fromVersion toVersion (docTokens doc) st).totalCount =
        st.totalCount +
          ((collectSections fromVersion toVersion doc).map sectionCount).sum := by
  induction doc with
  | nil =>
    intro st hitem _ _ _
    simp [docTokens, walkTokens, collectSections]
  | cons s rest ih =>
    intro st hitem hnodup hcat hfresh
    have hdt : docTokens (s :: rest) = sectionTokens s ++ docTokens rest := by
      simp [docTokens]
    by_cases hbrk : s.label ≠ toVersion ∧ (fromVersion = none ∨ fromVersion = some s.label)
    · rw [hdt, walk_section_break fromVersion toVersion s (docTokens rest) st hitem hbrk]
      rw [show collectSections fromVersion toVersion (s :: rest) = [] from by
        simp [collectSections, hbrk]]
      simp
    · obtain ⟨csf, hw⟩ := walk_section_tokens fromVersion toVersion s (docTokens rest)
        st hitem (hfresh s (List.mem_cons_self s rest)) (hcat s (List.mem_cons_self s rest))
        hbrk
      rw [hdt, hw]
      have hfresh' : ∀ s' ∈ rest,
          lookupEntry (st.versions ++ [sectionChanges s]) s'.label = none := by
        intro s' hs'
        rw [lookupEntry_append, hfresh s' (List.mem_cons_of_mem s hs')]
        have hne : s.label ≠ s'.label := by
          intro hss
          have : s.label ∈ rest.map (fun q => q.label) := by
            rw [hss]
            exact List.mem_map_of_mem (fun q => q.label) hs'
          exact (List.nodup_cons.mp hnodup).1 this
        simp [lookupEntry, sectionChanges, hne]
      obtain ⟨ihv, ihc⟩ := ih
        ⟨some s.label, csf, false, st.versions ++ [sectionChanges s],
          st.totalCount + sectionCount s⟩
        rfl (List.nodup_cons.mp hnodup).2
        (fun s' hs' => hcat s' (List.mem_cons_of_mem s hs')) hfresh'
      have hcol : collectSections fromVersion toVersion (s :: rest) =
          s :: collectSections fromVersion toVersion rest := by
        simp [collectSections, hbrk]
      rw [hcol]
      constructor
      · rw [ihv]
        simp [List.append_assoc]
      · rw [ihc]
        simp only [List.map_cons, List.sum_cons]
        omega

theorem getChanges_docTokens (doc : List ChangelogSection)
    (fromVersion : Option String) (toVersion : String)
    (hnodup : (doc.map (fun s => s.label)).Nodup)
    (hcat : ∀ s ∈ doc, (s.categories.map Prod.fst).Nodup) :
    getChanges (docTokens doc) fromVersion toVersion =
      docChanges (collectSections fromVersion toVersion doc) := by
  obtain ⟨hv, hc⟩ := walk_doc_tokens fromVersion toVersion doc
    ⟨none, none, false, [], 0⟩ rfl hnodup hcat (fun s _ => rfl)
  show (⟨(walkTokens fromVersion toVersion (docTokens doc) ⟨none, none, false, [], 0⟩).totalCount,
    (walkTokens fromVersion toVersion (docTokens doc) ⟨none, none, false, [], 0⟩).versions⟩ :
      ChangelogChanges) = _
  rw [ChangelogChanges.mk.injEq]
  constructor
  · rw [hc]
    simp [docChanges]
  · rw [hv]
    simp [docChanges]


theorem collectSections_none_of_ne (toVersion : String)
    (rest : List ChangelogSection) (h : ∀ s ∈ rest, s.label ≠ toVersion) :
    collectSections none toVersion rest = [] := by
  cases rest with
  | nil => rfl
  | cons r rr =>
    have hne := h r (List.mem_cons_self r rr)
    simp [collectSections, hne]

theorem collectSections_some_takeWhile (v toVersion : String) (hv : v ≠ toVersion)
    (doc : List ChangelogSection) :
    collectSections (some v) toVersion doc =
      doc.takeWhile (fun s => s.label ≠ v) := by
  induction doc with
  | nil => rfl
  | cons s rest ih =>
    by_cases hsv : s.label = v
    · simp [collectSections, hsv, List.takeWhile_cons, hv]
    · have h2 : ¬ (s.label ≠ toVersion ∧
          ((some v : Option String) = none ∨ some v = some s.label)) := by
        intro hcon
        rcases hcon.2 with h | h
        · exact Option.noConfusion h
        · exact hsv (Option.some.inj h).symm
      rw [show collectSections (some v) toVersion (s :: rest) =
          s :: collectSections (some v) toVersion rest from by
        simp only [collectSections, if_neg h2]]
      simp [List.takeWhile_cons, hsv, ih]

/-- C8: for every changelog document (with distinct version labels and
distinct category labels inside each version), `getChanges` with no
`fromVersion` collects entries only from the topmost section when its label is
the default top label `master`, stopping at the first version-depth heading
that differs from it; and `getChanges (some v)` for a version label
`v ≠ master` collects the entries of every version section strictly before
the first section labelled `v` (newest first, that section excluded),
stopping without error exactly there. -/
theorem c8_getChanges_version_sections (doc : List ChangelogSection)
    (hnodup : (doc.map (fun s => s.label)).Nodup)
    (hcat : ∀ s ∈ doc, (s.categories.map Prod.fst).Nodup) :
    (∀ s rest, doc = s :: rest → s.label = "master" →
      getChanges (docTokens doc) none "master" = docChanges [s]) ∧
    (∀ v, v ≠ "master" →
      getChanges (docTokens doc) (some v) "master" =
        docChanges (doc.takeWhile (fun s => s.label ≠ v))) := by
  constructor
  · intro s rest hdoc hlabel
    subst hdoc
    rw [getChanges_docTokens (s :: rest) none "master" hnodup hcat]
    have hne : ∀ s' ∈ rest, s'.label ≠ "master" := by
      intro s' hs' hlab
      have : s.label ∈ rest.map (fun q => q.label) := by
        rw [hlabel, ← hlab]
        exact List.mem_map_of_mem (fun q => q.label) hs'
      exact (List.nodup_cons.mp hnodup).1 this
    rw [show collectSections none "master" (s :: rest) =
        s :: collectSections none "master" rest from by simp [collectSections, hlabel]]
    rw [collectSections_none_of_ne "master" rest hne]
  · intro v hv
    rw [getChanges_docTokens doc (some v) "master" hnodup hcat,
      collectSections_some_takeWhile v "master" hv doc]

/-- Witness for C8 at the three-section document
`[master, 1.2.0, 1.1.0]`: `getChanges()` returns exactly the `master`
(unreleased) section, and `getChanges("1.1.0")` returns the `master` and
`1.2.0` sections but not `1.1.0`. -/
theorem c8_witness :
    getChanges (docTokens exampleDoc) none "master" =
      docChanges [exampleUnreleased] ∧
    getChanges (docTokens exampleDoc) (some "1.1.0") "master" =
      docChanges [exampleUnreleased, exampleV120] := by
  have h := c8_getChanges_version_sections exampleDoc (by decide)
    (by intro s hs; fin_cases hs <;> decide)
  constructor
  · exact h.1 exampleUnreleased [exampleV120, exampleV110] rfl rfl
  · have h2 := h.2 "1.1.0" (by decide)
    rw [h2]
    rfl

end Expo
